import Mathlib

/-!
# bin-hex-dec: base converter and wizard state machine

A shallow embedding of `main.go`.  Go strings are byte sequences, `int64` values are
integers in `[-2^63, 2^63)` whose bit operations go through their 64-bit pattern
(two-complement), and the Go standard-library routines the program calls
(`strings.Split`, `strings.Join`, `strconv.ParseInt`, `strconv.FormatInt`,
`fmt.Sprintf("%0*s", ..)`) are modelled after their Go implementations.
-/

namespace BinHexDec

/-! ## Go strings -/

/-- A Go `string` is an immutable sequence of bytes. -/
abbrev GoString := List UInt8

/-- The bytes of a (UTF-8 encoded) string literal. -/
def str (s : String) : GoString := s.toUTF8.data.toList

/-- The byte `'.'`. -/
def dot : UInt8 := 46

/-- Model of `strings.Split(s, ".")`: the maximal dot-free pieces of `s`, in order.
The empty string yields one empty piece. -/
def stringsSplit : GoString → List GoString
  | [] => [[]]
  | b :: rest =>
    if b = dot then [] :: stringsSplit rest
    else
      match stringsSplit rest with
      | [] => [[b]]
      | seg :: segs => (b :: seg) :: segs

/-- Model of `strings.Join(elems, sep)`. -/
def stringsJoin : List GoString → GoString → GoString
  | [], _ => []
  | [a], _ => a
  | a :: b :: rest, sep => a ++ sep ++ stringsJoin (b :: rest) sep

/-! ## 64-bit integers -/

/-- The 64-bit pattern (two-complement) of an `int64`, as a natural number below `2^64`. -/
def toUint64 (i : Int) : Nat := (i % 2 ^ 64).toNat

/-- The `int64` whose bit pattern is `u` (taken modulo `2^64`). -/
def toInt64 (u : Nat) : Int :=
  if u % 2 ^ 64 < 2 ^ 63 then ((u % 2 ^ 64 : Nat) : Int) else ((u % 2 ^ 64 : Nat) : Int) - 2 ^ 64

/-- The Go expression `(result << 8) | value` on `int64`: the shift drops the bits
above bit 63, the disjunction is bitwise on the 64-bit patterns. -/
def shlOr (result value : Int) : Int :=
  toInt64 ((toUint64 result * 2 ^ 8 % 2 ^ 64) ||| toUint64 value)

/-! ## strconv -/

/-- The two kinds of `*strconv.NumError`. -/
inductive NumError where
  | syntaxErr
  | rangeErr
  deriving DecidableEq

/-- The digit value `strconv.ParseUint` assigns to a byte: `'0'..'9'` are `0..9`, and a
byte whose lower-cased form `c | 0x20` lies in `'a'..'z'` is `10..35`. -/
def digitOf (c : UInt8) : Option Nat :=
  let n := c.toNat
  if 48 ≤ n ∧ n ≤ 57 then some (n - 48)
  else if 97 ≤ (n ||| 32) ∧ (n ||| 32) ≤ 122 then some ((n ||| 32) - 97 + 10)
  else none

/-- The digit loop of `strconv.ParseUint` for bit size 64 and an explicit base: a byte
that is no digit of the base is a syntax error; `n >= cutoff` (with
`cutoff = maxUint64/base + 1`) and a sum that leaves the `uint64` range are range
errors, reported at the first byte where they happen. -/
def parseUintLoop (base : Nat) : GoString → Nat → Except NumError Nat
  | [], n => .ok n
  | c :: rest, n =>
    match digitOf c with
    | none => .error .syntaxErr
    | some d =>
      if base ≤ d then .error .syntaxErr
      else if (2 ^ 64 - 1) / base + 1 ≤ n then .error .rangeErr
      else if 2 ^ 64 - 1 < n * base + d then .error .rangeErr
      else parseUintLoop base rest (n * base + d)

/-- Model of `strconv.ParseUint(s, base, 64)` for `2 <= base <= 36`. -/
def ParseUint (s : GoString) (base : Nat) : Except NumError Nat :=
  match s with
  | [] => .error .syntaxErr
  | _ :: _ => parseUintLoop base s 0

/-- Model of `strconv.ParseInt(s, base, 64)` for `2 <= base <= 36`: an optional
leading `+` or `-`, then `ParseUint`; the magnitude may be at most `2^63 - 1`, or
`2^63` after a minus sign. -/
def ParseInt (s : GoString) (base : Nat) : Except NumError Int :=
  match s with
  | [] => .error .syntaxErr
  | c :: rest =>
    let neg : Bool := c = 45
    let body : GoString := if c = 43 then rest else if c = 45 then rest else s
    match ParseUint body base with
    | .error e => .error e
    | .ok un =>
      if !neg ∧ 2 ^ 63 ≤ un then .error .rangeErr
      else if neg ∧ 2 ^ 63 < un then .error .rangeErr
      else .ok (if neg then -(un : Int) else (un : Int))

/-- The digit alphabet `"0123456789abcdefghijklmnopqrstuvwxyz"` of `strconv`. -/
def digitByte (d : Nat) : UInt8 :=
  if d < 10 then UInt8.ofNat (48 + d) else UInt8.ofNat (87 + d)

/-- The digit loop of `strconv.FormatUint`: digits are produced from the least
significant one, each put in front of those already written. -/
def formatBitsLoop (base : Nat) : Nat → Nat → GoString → GoString
  | 0, _, acc => acc
  | fuel + 1, u, acc =>
    if u < base then digitByte u :: acc
    else formatBitsLoop base fuel (u / base) (digitByte (u % base) :: acc)

/-- Model of `strconv.FormatUint(u, base)` for a `uint64` value: at most 64 digits, so
64 passes of the loop write every value below `2^64` in full (`FormatUint_spec`). -/
def FormatUint (u : Nat) (base : Nat) : GoString :=
  formatBitsLoop base 64 u []

/-- Model of `strconv.FormatInt(i, base)` for an `int64` value: a negative value is
written as `-` followed by the digits of its magnitude. -/
def FormatInt (i : Int) (base : Nat) : GoString :=
  if i < 0 then 45 :: FormatUint i.natAbs base else FormatUint i.natAbs base

/-- Model of `fmt.Sprintf("%0*s", width, s)` on an ASCII string: `s` is padded on the
left with `'0'` up to `width` characters; nothing is inserted after a sign. -/
def padZero (width : Nat) (s : GoString) : GoString :=
  List.replicate (width - s.length) 48 ++ s

/-! ## The converter -/

/-- The loop of `splitByN`: `i` runs over `0, n, 2n, ..` below `len(runes)` and each
pass appends `runes[i:min(i+n, len)]`; `rs` is what lies at and after `i`. -/
def splitLoop (n : Nat) : Nat → GoString → List GoString
  | 0, _ => []
  | fuel + 1, rs =>
    if rs.length = 0 then []
    else rs.take n :: splitLoop n fuel (rs.drop n)

/-- The function `splitByN(s, n)` for `n >= 1` on an ASCII string (where runes are bytes): the
pieces of `n` characters of `s`, the last one possibly shorter; the empty string
gives the single piece `"00000000"`. -/
def splitByN (s : GoString) (n : Nat) : List GoString :=
  if s.length = 0 then [str "00000000"]
  else splitLoop n s.length s

/-- The function `formatBinary` of `main.go`. -/
def formatBinary (decimal : Int) : GoString :=
  let binary := FormatInt decimal 2
  let numChunks := (binary.length + 7) / 8
  let padded := padZero (numChunks * 8) binary
  let chunks := splitByN padded 8
  stringsJoin chunks (str ".")

/-- The function `formatHexadecimal` of `main.go`. -/
def formatHexadecimal (decimal : Int) : GoString :=
  let hex := FormatInt decimal 16
  let numChunks := (hex.length + 1) / 2
  let padded := padZero (numChunks * 2) hex
  stringsJoin (splitByN padded 2) (str ".")

/-- The function `formatDecimal` of `main.go`. -/
def formatDecimal (decimal : Int) : GoString :=
  FormatInt decimal 10

/-- The loop shared by `parseBinary`, `parseHexadecimal` and `parseDecimal`: each part
is parsed in the given radix, the first failure ends the loop with its error, and a
parsed value is packed as `result = (result << 8) | value`. -/
def parseParts (radix : Nat) : List GoString → Int → Except NumError Int
  | [], result => .ok result
  | part :: rest, result =>
    match ParseInt part radix with
    | .error e => .error e
    | .ok value => parseParts radix rest (shlOr result value)

/-- The function `parseBinary` of `main.go`. -/
def parseBinary (input : GoString) : Except NumError Int :=
  parseParts 2 (stringsSplit input) 0

/-- The function `parseHexadecimal` of `main.go`. -/
def parseHexadecimal (input : GoString) : Except NumError Int :=
  parseParts 16 (stringsSplit input) 0

/-- The function `parseDecimal` of `main.go`. -/
def parseDecimal (input : GoString) : Except NumError Int :=
  parseParts 10 (stringsSplit input) 0

/-- The first `switch` of `convert`: the parser of the input type.  An input type
outside the three names leaves `decimal = 0` and `err = nil`. -/
def parseInput (input inputType : GoString) : Except NumError Int :=
  if inputType = str "binary" then parseBinary input
  else if inputType = str "hexadecimal" then parseHexadecimal input
  else if inputType = str "decimal" then parseDecimal input
  else .ok 0

/-- The second `switch` of `convert` and the `return` after it: the formatter of the
output type, or the error `"Invalid output type"`. -/
def formatOutput (decimal : Int) (outputType : GoString) : GoString × GoString :=
  if outputType = str "binary" then (formatBinary decimal, str "")
  else if outputType = str "hexadecimal" then (formatHexadecimal decimal, str "")
  else if outputType = str "decimal" then (formatDecimal decimal, str "")
  else (str "", str "Invalid output type")

/-- The function `convert`: the result string and the error string (empty on success). -/
def convert (input inputType outputType : GoString) : GoString × GoString :=
  match parseInput input inputType with
  | .error _ => (str "", str "Invalid input")
  | .ok decimal => formatOutput decimal outputType

/-! ## The wizard -/

/-- The `converter` model value.  The Go `int` fields are integers: `Update` only
increments a step below 3 and a cursor below a list length, and only decrements a
positive cursor, so no operation on them can overflow. -/
structure converter where
  inputTypeChoices : List GoString
  outputTypeChoices : List GoString
  cursorPosition : Int
  inputType : GoString
  outputType : GoString
  input : GoString
  output : GoString
  step : Int
  error : GoString
  deriving DecidableEq

/-- The function `initConverter`: every field not listed in the Go literal has its zero value. -/
def initConverter : converter :=
  { inputTypeChoices := [str "binary", str "hexadecimal", str "decimal"]
    outputTypeChoices := [str "binary", str "hexadecimal", str "decimal"]
    cursorPosition := 0
    inputType := str ""
    outputType := str ""
    input := str ""
    output := str ""
    step := 0
    error := str "" }

/-- The function `removeChoice`: the list without the first element equal to `choice`. -/
def removeChoice : List GoString → GoString → List GoString
  | [], _ => []
  | c :: rest, choice => if c = choice then rest else c :: removeChoice rest choice

/-- Slice indexing `choices[i]`: out of range is a run-time panic (`none`). -/
def index (choices : List GoString) (i : Int) : Option GoString :=
  if 0 ≤ i ∧ i < choices.length then choices.get? i.toNat else none

/-- The command returned next to the model: `nil` or `tea.Quit`. -/
inductive Cmd where
  | nil
  | quit
  deriving DecidableEq

/-- A message: a key press, given by `msg.String()`, or any other message. -/
inductive Msg where
  | key (s : GoString)
  | other
  deriving DecidableEq

/-- The method `converter.Update`; `none` is a run-time panic of a slice index. -/
def Update (c : converter) (msg : Msg) : Option (converter × Cmd) :=
  match msg with
  | .other => some (c, .nil)
  | .key k =>
    if k = str "ctrl+c" ∨ k = str "q" then some (c, .quit)
    else if k = str "r" then
      if c.step > 0 then some (initConverter, .nil) else some (c, .nil)
    else if k = str "up" ∨ k = str "k" then
      if c.cursorPosition > 0 then some ({ c with cursorPosition := c.cursorPosition - 1 }, .nil)
      else some (c, .nil)
    else if k = str "down" ∨ k = str "j" then
      if c.step = 0 ∧ c.cursorPosition < (c.inputTypeChoices.length : Int) - 1 then
        some ({ c with cursorPosition := c.cursorPosition + 1 }, .nil)
      else if c.step = 1 ∧ c.cursorPosition < (c.outputTypeChoices.length : Int) - 1 then
        some ({ c with cursorPosition := c.cursorPosition + 1 }, .nil)
      else some (c, .nil)
    else if k = str "enter" then
      if c.step = 0 then
        match index c.inputTypeChoices c.cursorPosition with
        | none => none
        | some choice =>
          some ({ c with
                  inputType := choice
                  step := c.step + 1
                  cursorPosition := 0
                  outputTypeChoices := removeChoice c.outputTypeChoices choice }, .nil)
      else if c.step = 1 then
        match index c.outputTypeChoices c.cursorPosition with
        | none => none
        | some choice =>
          if choice ≠ c.inputType then
            some ({ c with outputType := choice, step := c.step + 1 }, .nil)
          else some ({ c with outputType := choice }, .nil)
      else if c.step = 2 then
        let r := convert c.input c.inputType c.outputType
        if r.2 = str "" then
          some ({ c with output := r.1, error := r.2, step := c.step + 1 }, .nil)
        else some ({ c with output := r.1, error := r.2, input := str "" }, .nil)
      else if c.step = 3 then some (initConverter, .nil)
      else some (c, .nil)
    else if k = str "backspace" then
      if c.step = 2 ∧ c.input.length > 0 then
        some ({ c with input := c.input.take (c.input.length - 1) }, .nil)
      else some (c, .nil)
    else
      if c.step = 2 then some ({ c with input := c.input ++ k }, .nil)
      else some (c, .nil)

/-- The model after a sequence of messages, `none` if an `Update` panicked. -/
def run (c : converter) : List Msg → Option converter
  | [] => some c
  | m :: ms =>
    match Update c m with
    | none => none
    | some (c', _) => run c' ms

/-- The states the program can be in: the initial one and every one `Update` returns
from a reachable one. -/
inductive Reachable : converter → Prop where
  | init : Reachable initConverter
  | update (c c' : converter) (msg : Msg) (cmd : Cmd) :
      Reachable c → Update c msg = some (c', cmd) → Reachable c'

/-- The loop over the choices in `converter.View`: for the choice at index `i` the text
`fmt.Sprintf("%s %s\n", cursor, choice)` is appended to `s`, where `cursor` is `>` if
`i` is the cursor position and a blank otherwise. -/
def viewChoices (cursorPosition : Int) : List GoString → Nat → GoString → GoString
  | [], _, s => s
  | choice :: rest, i, s =>
    let cursor := if cursorPosition = (i : Int) then str ">" else str " "
    viewChoices cursorPosition rest (i + 1) (s ++ (cursor ++ str " " ++ choice ++ str "\n"))

/-- The `switch` on the step in `converter.View`: the text of the step, empty for a step
outside 0..3.  The styled prompt of step 2, which the `lipgloss` library renders from
`"> "` according to the terminal, is the parameter `activeCursor`. -/
def viewStep (activeCursor : GoString) (c : converter) : GoString :=
  if c.step = 0 then
    viewChoices c.cursorPosition c.inputTypeChoices 0
      (str "What type of input would you like to convert?\n\n")
  else if c.step = 1 then
    viewChoices c.cursorPosition c.outputTypeChoices 0
      (str "What type of output would you like?\n\n")
  else if c.step = 2 then
    let s := str "Enter your " ++ c.inputType ++ str " input:\n"
    let s := s ++ (activeCursor ++ c.input)
    if c.error ≠ str "" then
      s ++ (str "\n\nError: " ++ c.error ++ str ". Press Enter to try again.")
    else s
  else if c.step = 3 then
    let s := str "Input (" ++ c.inputType ++ str "): " ++ c.input ++ str "\nOutput ("
      ++ c.outputType ++ str "): " ++ c.output ++ str "\n"
    s ++ str "\nPress Enter to start over."
  else str ""

/-- The method `converter.View`: the text of the step, then the help lines. -/
def View (activeCursor : GoString) (c : converter) : GoString :=
  let s := viewStep activeCursor c
  let s := s ++ str "\nPress q to quit."
  let s := if c.step > 0 then s ++ str "\nPress r to reset." else s
  s ++ str "\n"

/-! ## Definitions used to state the properties -/

/-- The value the digit loop of `ParseUint` reaches from `a` over the bytes `s`, without
its range checks; a byte that is no digit counts as `0`. -/
def valFrom (base a : Nat) (s : GoString) : Nat :=
  s.foldl (fun acc c => acc * base + (digitOf c).getD 0) a

/-- Every byte of `s` is a digit of the base, as `ParseUint` reads digits. -/
def allDigits (base : Nat) (s : GoString) : Prop :=
  ∀ c ∈ s, ∃ d, digitOf c = some d ∧ d < base

/-- The value of a digit character of an integer literal: `0`..`9`, and the letters
`a`..`f` and `A`..`F` for ten to fifteen. -/
def literalDigit (c : UInt8) : Option Nat :=
  let n := c.toNat
  if 48 ≤ n ∧ n ≤ 57 then some (n - 48)
  else if 97 ≤ n ∧ n ≤ 102 then some (n - 87)
  else if 65 ≤ n ∧ n ≤ 70 then some (n - 55)
  else none

/-- The character is a digit of the radix. -/
def isDigitIn (radix : Nat) (c : UInt8) : Bool :=
  match literalDigit c with
  | some d => decide (d < radix)
  | none => false

/-- The digits of a literal: what follows its optional sign. -/
def literalDigits (seg : GoString) : GoString :=
  match seg with
  | [] => []
  | c :: rest => if c = 43 ∨ c = 45 then rest else seg

/-- The literal starts with a minus sign. -/
def literalNegative (seg : GoString) : Bool :=
  match seg with
  | [] => false
  | c :: _ => c = 45

/-- The number the digits denote in the radix. -/
def literalMagnitude (radix : Nat) (digits : GoString) : Nat :=
  digits.foldl (fun acc c => acc * radix + (literalDigit c).getD 0) 0

/-- The signed number an integer literal denotes. -/
def literalValue (radix : Nat) (seg : GoString) : Int :=
  if literalNegative seg then -(literalMagnitude radix (literalDigits seg) : Int)
  else (literalMagnitude radix (literalDigits seg) : Int)

/-- An optionally signed, non-empty integer literal in the radix that fits in a 64-bit
signed integer. -/
def isIntLiteral (radix : Nat) (seg : GoString) : Prop :=
  literalDigits seg ≠ [] ∧ (∀ c ∈ literalDigits seg, isDigitIn radix c = true)
    ∧ -2 ^ 63 ≤ literalValue radix seg ∧ literalValue radix seg ≤ 2 ^ 63 - 1

/-- The base-coherence check for the value `n` and the base `b2`: the decimal text of
`n` converts to `b2` without error, and the result converts back to the decimal text. -/
def coherent (n : Int) (b2 : GoString) : Bool :=
  let r := convert (formatDecimal n) (str "decimal") b2
  decide (r.2 = str "") && decide (convert r.1 b2 (str "decimal") = (formatDecimal n, str ""))

/-- The chunk-alignment check on an output text: without its dots it consists of digits
of the radix only, and their number is a multiple of `k`. -/
def alignedDigits (radix k : Nat) (out : GoString) : Bool :=
  let digits := out.filter (fun c => decide (c ≠ dot))
  digits.all (isDigitIn radix) && decide (digits.length % k = 0)

/-- The three base names, in the order of `initConverter`. -/
def baseNames : List GoString := [str "binary", str "hexadecimal", str "decimal"]

/-- The invariant of the wizard. -/
def Inv (c : converter) : Prop :=
  c.inputTypeChoices = baseNames ∧
  ((c.step = 0 ∧ c.outputTypeChoices = baseNames ∧ 0 ≤ c.cursorPosition ∧ c.cursorPosition < 3)
  ∨ (c.step = 1 ∧ c.inputType ∈ baseNames ∧
      c.outputTypeChoices = removeChoice baseNames c.inputType ∧
      0 ≤ c.cursorPosition ∧ c.cursorPosition < 2)
  ∨ ((c.step = 2 ∨ c.step = 3) ∧ c.inputType ∈ baseNames ∧
      c.outputTypeChoices = removeChoice baseNames c.inputType ∧
      c.outputType ∈ c.outputTypeChoices ∧ c.outputType ≠ c.inputType))

/-- The possible results of one `Update` from `c`. -/
inductive Outcome (c : converter) : Option (converter × Cmd) → Prop where
  | same (cmd : Cmd) : Outcome c (some (c, cmd))
  | reset : c.step > 0 → Outcome c (some (initConverter, .nil))
  | up : c.cursorPosition > 0 →
      Outcome c (some ({ c with cursorPosition := c.cursorPosition - 1 }, .nil))
  | down0 : c.step = 0 → c.cursorPosition < (c.inputTypeChoices.length : Int) - 1 →
      Outcome c (some ({ c with cursorPosition := c.cursorPosition + 1 }, .nil))
  | down1 : c.step = 1 → c.cursorPosition < (c.outputTypeChoices.length : Int) - 1 →
      Outcome c (some ({ c with cursorPosition := c.cursorPosition + 1 }, .nil))
  | enter0 (choice : GoString) : c.step = 0 →
      index c.inputTypeChoices c.cursorPosition = some choice →
      Outcome c (some ({ c with
                  inputType := choice
                  step := c.step + 1
                  cursorPosition := 0
                  outputTypeChoices := removeChoice c.outputTypeChoices choice }, .nil))
  | enter0Panic : c.step = 0 → index c.inputTypeChoices c.cursorPosition = none →
      Outcome c none
  | enter1 (choice : GoString) : c.step = 1 →
      index c.outputTypeChoices c.cursorPosition = some choice → choice ≠ c.inputType →
      Outcome c (some ({ c with outputType := choice, step := c.step + 1 }, .nil))
  | enter1Same (choice : GoString) : c.step = 1 →
      index c.outputTypeChoices c.cursorPosition = some choice → choice = c.inputType →
      Outcome c (some ({ c with outputType := choice }, .nil))
  | enter1Panic : c.step = 1 → index c.outputTypeChoices c.cursorPosition = none →
      Outcome c none
  | enter2 : c.step = 2 → (convert c.input c.inputType c.outputType).2 = str "" →
      Outcome c (some ({ c with
                  output := (convert c.input c.inputType c.outputType).1
                  error := (convert c.input c.inputType c.outputType).2
                  step := c.step + 1 }, .nil))
  | enter2Err : c.step = 2 → (convert c.input c.inputType c.outputType).2 ≠ str "" →
      Outcome c (some ({ c with
                  output := (convert c.input c.inputType c.outputType).1
                  error := (convert c.input c.inputType c.outputType).2
                  input := str "" }, .nil))
  | enter3 : c.step = 3 → Outcome c (some (initConverter, .nil))
  | backspace : c.step = 2 → c.input.length > 0 →
      Outcome c (some ({ c with input := c.input.take (c.input.length - 1) }, .nil))
  | append (k : GoString) : c.step = 2 →
      Outcome c (some ({ c with input := c.input ++ k }, .nil))

/-- The state after confirming `binary` as input base and `hexadecimal` as output base. -/
def stateEnterValue : converter :=
  { initConverter with
    outputTypeChoices := [str "hexadecimal", str "decimal"]
    inputType := str "binary"
    outputType := str "hexadecimal"
    step := 2 }

/-- A state in EnterValue holding the text `255`, from decimal to hexadecimal. -/
def stateTyped : converter :=
  { initConverter with
    outputTypeChoices := [str "binary", str "hexadecimal"]
    cursorPosition := 1
    inputType := str "decimal"
    outputType := str "hexadecimal"
    input := str "255"
    step := 2 }

/-- The key names `Update` gives a meaning of their own; every other key is appended to
the input in step 2. -/
def reservedKeys : List GoString :=
  [str "ctrl+c", str "q", str "r", str "up", str "k", str "down", str "j", str "enter",
   str "backspace"]

/-- A state in EnterValue after a failed conversion: the error is set, the input is
cleared. -/
def stateFailed : converter :=
  { initConverter with
    outputTypeChoices := [str "binary", str "hexadecimal"]
    cursorPosition := 1
    inputType := str "decimal"
    outputType := str "hexadecimal"
    step := 2
    error := str "Invalid input" }

/-- The line of a choice: the marker `>` or a blank, a blank, the choice, a line end. -/
def choiceLine (marked : Bool) (choice : GoString) : GoString :=
  (if marked then str ">" else str " ") ++ str " " ++ choice ++ str "\n"

/-- The lines of the choices, the first of which has index `i`. -/
def markedLines (cursorPosition : Int) : Nat → List GoString → List GoString
  | _, [] => []
  | i, choice :: rest =>
    choiceLine (decide (cursorPosition = (i : Int))) choice
      :: markedLines cursorPosition (i + 1) rest

/-- The help lines at the end of every view. -/
def helpLines (step : Int) : GoString :=
  str "\nPress q to quit." ++ (if step > 0 then str "\nPress r to reset." else []) ++ str "\n"

/-- Whether a segment is an integer literal can be computed. -/
instance (radix : Nat) (seg : GoString) : Decidable (isIntLiteral radix seg) := by
  unfold isIntLiteral
  infer_instance

/-- The `k` digits of `x` modulo `base^k`, most significant first, in the lowercase
digit alphabet. -/
def fixedDigits (base k x : Nat) : GoString :=
  (List.range k).map (fun j => digitByte (x / base ^ (k - 1 - j) % base))

/-- The minimal digit string of `x`: its digits without a leading zero, most significant
first, and the single digit `0` for zero. -/
def minimalDigits (base x : Nat) : GoString :=
  if x = 0 then [digitByte 0] else (Nat.digits base x).reverse.map digitByte

/-- The bytes of `v`, most significant first, without a leading zero byte; one zero byte
for zero. -/
def bytesBE (v : Nat) : List Nat :=
  if v = 0 then [0] else (Nat.digits 256 v).reverse

/-- The expression `(acc << 8) | v` of 64-bit signed integers, computed on bit vectors
of width 64: both operands are taken modulo `2^64`, the shift and the disjunction act
on the 64 bits, and the result is read as a signed number. -/
def int64ShlOr (acc v : Int) : Int :=
  ((BitVec.ofInt 64 acc <<< 8) ||| BitVec.ofInt 64 v).toInt

/-- The signed decimal text of an integer: a minus sign for a negative number, then
the minimal decimal digit string of its magnitude. -/
def signedDecimal (x : Int) : GoString :=
  if x < 0 then 45 :: minimalDigits 10 x.natAbs else minimalDigits 10 x.natAbs

/-! ## Lemmas -/

set_option maxRecDepth 100000

theorem digit_table : ∀ n < 256,
    (if 48 ≤ n ∧ n ≤ 57 then some (n - 48)
      else if 97 ≤ (n ||| 32) ∧ (n ||| 32) ≤ 122 then some ((n ||| 32) - 97 + 10)
      else none : Option Nat).filter (fun d => decide (d < 16))
    = (if 48 ≤ n ∧ n ≤ 57 then some (n - 48)
      else if 97 ≤ n ∧ n ≤ 102 then some (n - 87)
      else if 65 ≤ n ∧ n ≤ 70 then some (n - 55)
      else none) := by
  decide

theorem digitOf_digitByte (d : Nat) (h : d < 16) : digitOf (digitByte d) = some d := by
  interval_cases d <;> decide

theorem digitOf_sign (c : UInt8) (d : Nat) (h : digitOf c = some d) :
    c ≠ 43 ∧ c ≠ 45 ∧ c ≠ dot := by
  have h43 : digitOf 43 = none := by decide
  have h45 : digitOf 45 = none := by decide
  have h46 : digitOf dot = none := by decide
  refine ⟨?_, ?_, ?_⟩ <;> rintro rfl
  · rw [h43] at h; cases h
  · rw [h45] at h; cases h
  · rw [h46] at h; cases h

theorem valFrom_nil (b a : Nat) : valFrom b a [] = a := rfl

theorem valFrom_cons (b a : Nat) (c : UInt8) (s : GoString) :
    valFrom b a (c :: s) = valFrom b (a * b + (digitOf c).getD 0) s := rfl

theorem valFrom_append (b a : Nat) (s t : GoString) :
    valFrom b a (s ++ t) = valFrom b (valFrom b a s) t := by
  simp [valFrom, List.foldl_append]

theorem valFrom_eq (b a : Nat) (s : GoString) :
    valFrom b a s = a * b ^ s.length + valFrom b 0 s := by
  induction s generalizing a with
  | nil => simp [valFrom]
  | cons c s ih =>
    rw [valFrom_cons, valFrom_cons, ih, ih (0 * b + _)]
    simp only [List.length_cons, pow_succ]
    ring

theorem le_valFrom (b a : Nat) (s : GoString) (hb : 1 ≤ b) : a ≤ valFrom b a s := by
  rw [valFrom_eq]
  have : 1 ≤ b ^ s.length := Nat.one_le_pow _ _ hb
  nlinarith

theorem valFrom_lt_pow (b : Nat) (s : GoString) (hs : allDigits b s) :
    valFrom b 0 s < b ^ s.length := by
  induction s using List.reverseRecOn with
  | nil => simp [valFrom]
  | append_singleton s c ih =>
    have hs' : allDigits b s := fun x hx => hs x (by simp [hx])
    obtain ⟨d, hd, hlt⟩ := hs c (by simp)
    have := ih hs'
    rw [valFrom_append, valFrom_cons, valFrom_nil, hd]
    simp only [Option.getD_some, List.length_append, List.length_singleton, pow_succ]
    nlinarith

/-- The digit loop succeeds on digits whose value stays in the `uint64` range. -/
theorem parseUintLoop_ok (b : Nat) (hb : 2 ≤ b) (s : GoString) (a : Nat)
    (hs : allDigits b s) (hv : valFrom b a s < 2 ^ 64) :
    parseUintLoop b s a = .ok (valFrom b a s) := by
  induction s generalizing a with
  | nil => rfl
  | cons c s ih =>
    obtain ⟨d, hd, hlt⟩ := hs c (by simp)
    have hs' : allDigits b s := fun x hx => hs x (by simp [hx])
    rw [valFrom_cons, hd] at hv
    simp only [Option.getD_some] at hv
    have hle := le_valFrom b (a * b + d) s (by omega)
    have h1 : ¬ b ≤ d := by omega
    have h2 : ¬ (2 ^ 64 - 1) / b + 1 ≤ a := by
      have : a ≤ (2 ^ 64 - 1) / b := by
        rw [Nat.le_div_iff_mul_le (by omega)]
        omega
      omega
    have h3 : ¬ 2 ^ 64 - 1 < a * b + d := by omega
    rw [parseUintLoop, hd]
    simp only
    rw [if_neg h1, if_neg h2, if_neg h3, ih _ hs' hv, valFrom_cons, hd]
    rfl

/-- A successful digit loop has read digits only, and returns their value. -/
theorem parseUintLoop_inv (b : Nat) (s : GoString) (a n : Nat)
    (h : parseUintLoop b s a = .ok n) :
    allDigits b s ∧ valFrom b a s = n ∧ (a < 2 ^ 64 → n < 2 ^ 64) := by
  induction s generalizing a with
  | nil =>
    simp only [parseUintLoop, Except.ok.injEq] at h
    subst h
    exact ⟨fun c hc => by simp at hc, rfl, id⟩
  | cons c s ih =>
    rw [parseUintLoop] at h
    cases hd : digitOf c with
    | none => rw [hd] at h; simp at h
    | some d =>
      rw [hd] at h
      simp only at h
      split_ifs at h with h1 h2 h3
      obtain ⟨i1, i2, i3⟩ := ih _ h
      refine ⟨?_, ?_, ?_⟩
      · intro x hx
        rcases List.mem_cons.mp hx with rfl | hx
        · exact ⟨d, hd, by omega⟩
        · exact i1 x hx
      · rw [valFrom_cons, hd]; exact i2
      · intro _; exact i3 (by omega)

theorem shlOr_eq (a v : Nat) (hv : v < 2 ^ 8) (h : a * 2 ^ 8 + v < 2 ^ 63) :
    shlOr (a : Int) (v : Int) = ((a * 2 ^ 8 + v : Nat) : Int) := by
  have ha : toUint64 (a : Int) = a := by
    unfold toUint64
    have : (a : Int) % 2 ^ 64 = a := Int.emod_eq_of_lt (by omega) (by omega)
    rw [this]; rfl
  have hv' : toUint64 (v : Int) = v := by
    unfold toUint64
    have : (v : Int) % 2 ^ 64 = v := Int.emod_eq_of_lt (by omega) (by omega)
    rw [this]; rfl
  have hm : a * 2 ^ 8 % 2 ^ 64 = a * 2 ^ 8 := Nat.mod_eq_of_lt (by omega)
  have hor : a * 2 ^ 8 ||| v = a * 2 ^ 8 + v := by
    rw [Nat.mul_comm]
    exact (Nat.mul_add_lt_is_or hv a).symm
  unfold shlOr
  rw [ha, hv', hm, hor]
  unfold toInt64
  have hm2 : (a * 2 ^ 8 + v) % 2 ^ 64 = a * 2 ^ 8 + v := Nat.mod_eq_of_lt (by omega)
  rw [hm2, if_pos h]

/-- `ParseInt` on a string of digits whose value fits below `2^63`. -/
theorem ParseInt_digits (b : Nat) (hb : 2 ≤ b) (s : GoString) (hne : s ≠ [])
    (hs : allDigits b s) (hv : valFrom b 0 s < 2 ^ 63) :
    ParseInt s b = .ok ((valFrom b 0 s : Nat) : Int) := by
  cases s with
  | nil => exact absurd rfl hne
  | cons c rest =>
    obtain ⟨d, hd, _⟩ := hs c (by simp)
    obtain ⟨h43, h45, _⟩ := digitOf_sign c d hd
    have hu : ParseUint (c :: rest) b = .ok (valFrom b 0 (c :: rest)) :=
      parseUintLoop_ok b hb (c :: rest) 0 hs (by omega)
    unfold ParseInt
    simp only [if_neg h43, if_neg h45, hu, decide_eq_true_eq]
    rw [if_neg (by omega), if_neg (by simp [h45])]

/-- With enough fuel the digit loop of `FormatUint` writes, in front of `acc`, a
non-empty string of digits of the base whose value is `u`. -/
theorem formatBitsLoop_spec (b : Nat) (hb : 2 ≤ b) (hb16 : b ≤ 16) (fuel u : Nat)
    (acc : GoString) (hf : 1 ≤ fuel) (hu : u < 2 ^ fuel) :
    ∃ D : GoString, formatBitsLoop b fuel u acc = D ++ acc ∧ D ≠ [] ∧ allDigits b D
      ∧ valFrom b 0 D = u := by
  induction fuel generalizing u acc with
  | zero => omega
  | succ fuel ih =>
    rw [formatBitsLoop]
    by_cases hlt : u < b
    · rw [if_pos hlt]
      refine ⟨[digitByte u], rfl, by simp, ?_, ?_⟩
      · intro c hc
        rw [List.mem_singleton] at hc
        subst hc
        exact ⟨u, digitOf_digitByte u (by omega), hlt⟩
      · rw [valFrom_cons, valFrom_nil, digitOf_digitByte u (by omega)]
        simp
    · rw [if_neg hlt]
      have hf' : 1 ≤ fuel := by
        rcases Nat.eq_zero_or_pos fuel with h0 | h0
        · subst h0; omega
        · exact h0
      have hu' : u / b < 2 ^ fuel := by
        have h2 : u / b ≤ u / 2 := Nat.div_le_div_left hb (by omega)
        have : u / 2 < 2 ^ fuel := by
          rw [Nat.div_lt_iff_lt_mul (by omega)]
          rw [pow_succ] at hu
          exact hu
        omega
      obtain ⟨D, hD, hne, hall, hval⟩ := ih (u / b) (digitByte (u % b) :: acc) hf' hu'
      have hmod : u % b < b := Nat.mod_lt _ (by omega)
      refine ⟨D ++ [digitByte (u % b)], ?_, by simp, ?_, ?_⟩
      · rw [hD]; simp
      · intro c hc
        rcases List.mem_append.mp hc with hc | hc
        · exact hall c hc
        · rw [List.mem_singleton] at hc
          subst hc
          exact ⟨u % b, digitOf_digitByte _ (by omega), hmod⟩
      · rw [valFrom_append, valFrom_cons, valFrom_nil, hval, digitOf_digitByte _ (by omega)]
        simp only [Option.getD_some]
        exact Nat.div_add_mod' u b

/-- `FormatUint` writes every `uint64` value in full: 64 passes are enough. -/
theorem FormatUint_spec (b : Nat) (hb : 2 ≤ b) (hb16 : b ≤ 16) (u : Nat) (hu : u < 2 ^ 64) :
    FormatUint u b ≠ [] ∧ allDigits b (FormatUint u b) ∧ valFrom b 0 (FormatUint u b) = u := by
  obtain ⟨D, hD, hne, hall, hval⟩ := formatBitsLoop_spec b hb hb16 64 u [] (by omega) hu
  rw [List.append_nil] at hD
  unfold FormatUint
  rw [hD]
  exact ⟨hne, hall, hval⟩

theorem FormatInt_nonneg (n : Int) (b : Nat) (h : 0 ≤ n) : FormatInt n b = FormatUint n.toNat b := by
  unfold FormatInt
  rw [if_neg (by omega)]
  congr 1
  omega

theorem allDigits_padZero (b : Nat) (hb : 1 ≤ b) (w : Nat) (s : GoString) (hs : allDigits b s) :
    allDigits b (padZero w s) := by
  intro c hc
  unfold padZero at hc
  rcases List.mem_append.mp hc with hc | hc
  · have := List.eq_of_mem_replicate hc
    subst this
    exact ⟨0, by decide, by omega⟩
  · exact hs c hc

theorem valFrom_replicate_zero (b k : Nat) : valFrom b 0 (List.replicate k 48) = 0 := by
  induction k with
  | zero => rfl
  | succ k ih =>
    rw [List.replicate_succ, valFrom_cons]
    have : digitOf 48 = some 0 := by decide
    rw [this]
    simpa using ih

theorem valFrom_padZero (b w : Nat) (s : GoString) :
    valFrom b 0 (padZero w s) = valFrom b 0 s := by
  unfold padZero
  rw [valFrom_append, valFrom_replicate_zero]

theorem length_padZero (w : Nat) (s : GoString) (h : s.length ≤ w) :
    (padZero w s).length = w := by
  unfold padZero
  simp
  omega

theorem stringsSplit_nodot (s : GoString) (h : dot ∉ s) : stringsSplit s = [s] := by
  induction s with
  | nil => rfl
  | cons b s ih =>
    have hb : b ≠ dot := fun e => h (by simp [e])
    have hs : dot ∉ s := fun e => h (by simp [e])
    rw [stringsSplit, if_neg hb, ih hs]

theorem stringsSplit_append_dot (s t : GoString) (h : dot ∉ s) :
    stringsSplit (s ++ dot :: t) = s :: stringsSplit t := by
  induction s with
  | nil => simp [stringsSplit]
  | cons b s ih =>
    have hb : b ≠ dot := fun e => h (by simp [e])
    have hs : dot ∉ s := fun e => h (by simp [e])
    rw [List.cons_append, stringsSplit, if_neg hb, ih hs]

theorem str_dot : str "." = [dot] := by decide

/-- Splitting the joined chunks at the dots gives the chunks back. -/
theorem stringsSplit_stringsJoin (chunks : List GoString) (hne : chunks ≠ [])
    (h : ∀ ch ∈ chunks, dot ∉ ch) :
    stringsSplit (stringsJoin chunks (str ".")) = chunks := by
  induction chunks with
  | nil => exact absurd rfl hne
  | cons a rest ih =>
    cases rest with
    | nil =>
      rw [stringsJoin]
      exact stringsSplit_nodot a (h a (by simp))
    | cons b rest =>
      rw [stringsJoin, str_dot, List.append_assoc, List.singleton_append,
        stringsSplit_append_dot _ _ (h a (by simp)), ← str_dot,
        ih (by simp) (fun ch hc => h ch (by simp [hc]))]

/-- With fuel for every character, the loop of `splitByN` cuts a string whose length is
a multiple of `n` into pieces of exactly `n` characters, losing nothing. -/
theorem splitLoop_spec (n : Nat) (hn : 1 ≤ n) (fuel : Nat) (rs : GoString) (m : Nat)
    (hlen : rs.length = m * n) (hf : rs.length ≤ fuel) :
    (splitLoop n fuel rs).flatten = rs ∧ (splitLoop n fuel rs).length = m
      ∧ ∀ ch ∈ splitLoop n fuel rs, ch.length = n := by
  induction fuel generalizing rs m with
  | zero =>
    have h0 : rs = [] := List.length_eq_zero.mp (by omega)
    subst h0
    have hm : m = 0 := by
      rcases Nat.eq_zero_or_pos m with h | h
      · exact h
      · have : 1 * n ≤ m * n := Nat.mul_le_mul_right n h
        simp at hlen
        omega
    subst hm
    simp [splitLoop]
  | succ fuel ih =>
    rw [splitLoop]
    by_cases h0 : rs.length = 0
    · rw [if_pos h0]
      have hm : m = 0 := by
        rcases Nat.eq_zero_or_pos m with h | h
        · exact h
        · have : 1 * n ≤ m * n := Nat.mul_le_mul_right n h
          omega
      subst hm
      have : rs = [] := List.length_eq_zero.mp h0
      subst this
      simp
    · rw [if_neg h0]
      obtain ⟨m', rfl⟩ : ∃ m', m = m' + 1 := by
        rcases m with _ | m'
        · rw [Nat.zero_mul] at hlen; exact absurd hlen h0
        · exact ⟨m', rfl⟩
      have hlen' : (rs.drop n).length = m' * n := by
        rw [List.length_drop, hlen, Nat.add_mul]; omega
      have hf' : (rs.drop n).length ≤ fuel := by
        rw [List.length_drop]; omega
      obtain ⟨i1, i2, i3⟩ := ih (rs.drop n) m' hlen' hf'
      refine ⟨?_, ?_, ?_⟩
      · rw [List.flatten_cons, i1, List.take_append_drop]
      · rw [List.length_cons, i2]
      · intro ch hc
        rcases List.mem_cons.mp hc with rfl | hc
        · rw [List.length_take, hlen, Nat.add_mul]
          have : n ≤ m' * n + 1 * n := by omega
          omega
        · exact i3 ch hc

theorem shlOr_zero (v : Nat) (h : v < 2 ^ 63) : shlOr 0 (v : Int) = (v : Int) := by
  have hv' : toUint64 (v : Int) = v := by
    unfold toUint64
    have : (v : Int) % 2 ^ 64 = v := Int.emod_eq_of_lt (by omega) (by omega)
    rw [this]; rfl
  have h0 : toUint64 0 = 0 := by decide
  unfold shlOr
  rw [hv', h0]
  simp only [Nat.zero_mul, Nat.zero_mod, Nat.zero_or]
  unfold toInt64
  have hm2 : v % 2 ^ 64 = v := Nat.mod_eq_of_lt (by omega)
  rw [hm2, if_pos h]

/-- Parsing chunks of `n` digits each, where `base^n = 256`, packs the digits of all
chunks into one value, as long as that value stays below `2^63`. -/
theorem parseParts_chunks (b n : Nat) (hb : 2 ≤ b) (hn : 1 ≤ n) (hbn : b ^ n = 2 ^ 8)
    (chunks : List GoString) (a : Nat)
    (hc : ∀ ch ∈ chunks, allDigits b ch ∧ ch.length = n)
    (hv : valFrom b a chunks.flatten < 2 ^ 63) :
    parseParts b chunks (a : Int) = .ok ((valFrom b a chunks.flatten : Nat) : Int) := by
  induction chunks generalizing a with
  | nil => rfl
  | cons ch rest ih =>
    obtain ⟨hd, hl⟩ := hc ch (by simp)
    rw [List.flatten_cons, valFrom_append] at hv ⊢
    have hlt : valFrom b 0 ch < 2 ^ 8 := by
      have := valFrom_lt_pow b ch hd
      rw [hl, hbn] at this
      exact this
    have heq : valFrom b a ch = a * 2 ^ 8 + valFrom b 0 ch := by
      rw [valFrom_eq, hl, hbn]
    have hle := le_valFrom b (valFrom b a ch) rest.flatten (by omega)
    have hne : ch ≠ [] := by
      intro e; rw [e] at hl; simp at hl; omega
    rw [parseParts, ParseInt_digits b hb ch hne hd (by omega)]
    simp only
    rw [shlOr_eq a _ hlt (by omega), ← heq]
    exact ih _ (fun x hx => hc x (by simp [hx])) hv

theorem allDigits_nodot (b : Nat) (s : GoString) (h : allDigits b s) : dot ∉ s := by
  intro hm
  obtain ⟨d, hd, _⟩ := h dot hm
  exact (digitOf_sign dot d hd).2.2 rfl

/-- The chunks of the zero-padded digits of a non-negative value. -/
theorem chunks_spec (b n : Nat) (hb : 2 ≤ b) (hb16 : b ≤ 16) (hn : 1 ≤ n) (u : Nat)
    (hu : u < 2 ^ 64) :
    let digits := FormatUint u b
    let chunks := splitByN (padZero ((digits.length + (n - 1)) / n * n) digits) n
    chunks ≠ [] ∧ (∀ ch ∈ chunks, allDigits b ch ∧ ch.length = n)
      ∧ valFrom b 0 chunks.flatten = u := by
  intro digits chunks
  obtain ⟨hne, hall, hval⟩ := FormatUint_spec b hb hb16 u hu
  have hlen1 : 1 ≤ digits.length := by
    rcases Nat.eq_zero_or_pos digits.length with h | h
    · exact absurd (List.length_eq_zero.mp h) hne
    · exact h
  have hw : digits.length ≤ (digits.length + (n - 1)) / n * n := by
    have := Nat.div_add_mod (digits.length + (n - 1)) n
    have := Nat.mod_lt (digits.length + (n - 1)) (show n > 0 by omega)
    rw [Nat.mul_comm]
    omega
  have hpl := length_padZero _ digits hw
  have hpd := allDigits_padZero b (by omega) ((digits.length + (n - 1)) / n * n) digits hall
  have hp0 : (padZero ((digits.length + (n - 1)) / n * n) digits).length ≠ 0 := by omega
  have hch : chunks = splitLoop n (padZero ((digits.length + (n - 1)) / n * n) digits).length
      (padZero ((digits.length + (n - 1)) / n * n) digits) := by
    show splitByN _ n = _
    unfold splitByN
    rw [if_neg hp0]
  obtain ⟨s1, s2, s3⟩ := splitLoop_spec n hn _ _ _ hpl (le_refl _)
  rw [← hch] at s1 s2 s3
  refine ⟨?_, ?_, ?_⟩
  · intro e
    rw [e] at s2
    simp at s2
    have : (digits.length + (n - 1)) / n * n = 0 := by rw [← s2]; simp
    omega
  · intro ch hc
    refine ⟨?_, s3 ch hc⟩
    intro c hcc
    apply hpd
    rw [← s1]
    exact List.mem_flatten.mpr ⟨ch, hc, hcc⟩
  · rw [s1, valFrom_padZero]
    exact hval

theorem parse_chunks (b n : Nat) (hb : 2 ≤ b) (hb16 : b ≤ 16) (hn : 1 ≤ n)
    (hbn : b ^ n = 2 ^ 8) (v : Int) (h0 : 0 ≤ v) (h63 : v < 2 ^ 63) :
    parseParts b (stringsSplit (stringsJoin
      (splitByN (padZero (((FormatInt v b).length + (n - 1)) / n * n) (FormatInt v b)) n)
      (str "."))) 0 = .ok v := by
  rw [FormatInt_nonneg v b h0]
  obtain ⟨c1, c2, c3⟩ := chunks_spec b n hb hb16 hn v.toNat (by omega)
  rw [stringsSplit_stringsJoin _ c1 (fun ch hc => allDigits_nodot b ch (c2 ch hc).1)]
  have := parseParts_chunks b n hb hn hbn _ 0 c2 (by rw [c3]; omega)
  rw [c3] at this
  rw [show (0 : Int) = ((0 : Nat) : Int) from rfl, this]
  congr 1
  omega

theorem parseBinary_formatBinary (v : Int) (h0 : 0 ≤ v) (h63 : v < 2 ^ 63) :
    parseBinary (formatBinary v) = .ok v :=
  parse_chunks 2 8 (by omega) (by omega) (by omega) (by norm_num) v h0 h63

theorem parseHexadecimal_formatHexadecimal (v : Int) (h0 : 0 ≤ v) (h63 : v < 2 ^ 63) :
    parseHexadecimal (formatHexadecimal v) = .ok v :=
  parse_chunks 16 2 (by omega) (by omega) (by omega) (by norm_num) v h0 h63

theorem parseDecimal_formatDecimal (v : Int) (h0 : 0 ≤ v) (h63 : v < 2 ^ 63) :
    parseDecimal (formatDecimal v) = .ok v := by
  unfold parseDecimal formatDecimal
  rw [FormatInt_nonneg v 10 h0]
  obtain ⟨hne, hall, hval⟩ := FormatUint_spec 10 (by omega) (by omega) v.toNat (by omega)
  rw [stringsSplit_nodot _ (allDigits_nodot 10 _ hall), parseParts,
    ParseInt_digits 10 (by omega) _ hne hall (by rw [hval]; omega)]
  simp only
  rw [hval, shlOr_zero _ (by omega), parseParts]
  congr 1
  omega

theorem parseInput_binary (input : GoString) :
    parseInput input (str "binary") = parseBinary input := by
  unfold parseInput
  rw [if_pos rfl]

theorem parseInput_hexadecimal (input : GoString) :
    parseInput input (str "hexadecimal") = parseHexadecimal input := by
  unfold parseInput
  rw [if_neg (by decide), if_pos rfl]

theorem parseInput_decimal (input : GoString) :
    parseInput input (str "decimal") = parseDecimal input := by
  unfold parseInput
  rw [if_neg (by decide), if_neg (by decide), if_pos rfl]

theorem formatOutput_binary (v : Int) :
    formatOutput v (str "binary") = (formatBinary v, str "") := by
  unfold formatOutput
  rw [if_pos rfl]

theorem formatOutput_hexadecimal (v : Int) :
    formatOutput v (str "hexadecimal") = (formatHexadecimal v, str "") := by
  unfold formatOutput
  rw [if_neg (by decide), if_pos rfl]

theorem formatOutput_decimal (v : Int) :
    formatOutput v (str "decimal") = (formatDecimal v, str "") := by
  unfold formatOutput
  rw [if_neg (by decide), if_neg (by decide), if_pos rfl]

theorem digitOf_filter (c : UInt8) :
    (digitOf c).filter (fun d => decide (d < 16)) = literalDigit c :=
  digit_table c.toNat c.val.isLt

theorem digit_agree (b : Nat) (hb : b ≤ 16) (c : UInt8) (d : Nat) :
    (digitOf c = some d ∧ d < b) ↔ (literalDigit c = some d ∧ d < b) := by
  have h := digitOf_filter c
  cases hd : digitOf c with
  | none =>
    rw [hd] at h
    simp only [Option.filter] at h
    rw [← h]
  | some x =>
    rw [hd] at h
    simp only [Option.filter] at h
    by_cases hx : x < 16
    · rw [if_pos (by simpa using hx)] at h
      rw [← h]
    · rw [if_neg (by simpa using hx)] at h
      rw [← h]
      constructor
      · rintro ⟨e, hlt⟩
        cases e
        omega
      · rintro ⟨e, _⟩
        cases e

theorem isDigitIn_iff (b : Nat) (c : UInt8) :
    isDigitIn b c = true ↔ ∃ d, literalDigit c = some d ∧ d < b := by
  unfold isDigitIn
  cases literalDigit c with
  | none => simp
  | some d => simp

theorem allDigits_iff (b : Nat) (hb : b ≤ 16) (s : GoString) :
    allDigits b s ↔ ∀ c ∈ s, isDigitIn b c = true := by
  simp only [isDigitIn_iff]
  unfold allDigits
  constructor
  · intro h c hc
    obtain ⟨d, hd⟩ := h c hc
    exact ⟨d, (digit_agree b hb c d).mp hd⟩
  · intro h c hc
    obtain ⟨d, hd⟩ := h c hc
    exact ⟨d, (digit_agree b hb c d).mpr hd⟩

theorem valFrom_eq_foldl (b : Nat) (hb : b ≤ 16) (s : GoString) (a : Nat)
    (h : allDigits b s) :
    valFrom b a s = s.foldl (fun acc c => acc * b + (literalDigit c).getD 0) a := by
  induction s generalizing a with
  | nil => rfl
  | cons c s ih =>
    obtain ⟨d, hd⟩ := h c (by simp)
    have hl := (digit_agree b hb c d).mp hd
    rw [valFrom_cons, List.foldl_cons, hd.1, hl.1]
    exact ih _ (fun x hx => h x (by simp [hx]))

theorem valFrom_eq_literalMagnitude (b : Nat) (hb : b ≤ 16) (s : GoString)
    (h : allDigits b s) : valFrom b 0 s = literalMagnitude b s :=
  valFrom_eq_foldl b hb s 0 h

/-- `ParseUint` succeeds exactly on the non-empty digit strings whose value is a
`uint64`, and returns that value. -/
theorem ParseUint_ok_iff (b : Nat) (hb : 2 ≤ b) (s : GoString) (n : Nat) :
    ParseUint s b = .ok n ↔ s ≠ [] ∧ allDigits b s ∧ valFrom b 0 s = n ∧ n < 2 ^ 64 := by
  cases s with
  | nil => simp [ParseUint]
  | cons c rest =>
    show parseUintLoop b (c :: rest) 0 = .ok n ↔ _
    constructor
    · intro h
      obtain ⟨i1, i2, i3⟩ := parseUintLoop_inv b _ 0 n h
      exact ⟨by simp, i1, i2, i3 (by omega)⟩
    · rintro ⟨_, h1, h2, h3⟩
      rw [parseUintLoop_ok b hb _ 0 h1 (by omega), h2]

/-- `ParseInt` accepts exactly the integer literals of the radix that fit in `int64`. -/
theorem ParseInt_ok_iff (b : Nat) (hb : 2 ≤ b) (hb16 : b ≤ 16) (s : GoString) :
    (∃ v, ParseInt s b = .ok v) ↔ isIntLiteral b s := by
  cases s with
  | nil =>
    constructor
    · rintro ⟨v, hv⟩
      simp [ParseInt] at hv
    · rintro ⟨h, _⟩
      exact absurd rfl h
  | cons c rest =>
    -- the sign and the digits, as `ParseInt` and as the literal see them
    have key : ∀ (neg : Bool) (body : GoString),
        ((∃ v : Int, (match ParseUint body b with
            | .error e => (.error e : Except NumError Int)
            | .ok un =>
              if !neg ∧ 2 ^ 63 ≤ un then .error .rangeErr
              else if neg ∧ 2 ^ 63 < un then .error .rangeErr
              else .ok (if neg then -(un : Int) else (un : Int))) = .ok v)
          ↔ body ≠ [] ∧ (∀ x ∈ body, isDigitIn b x = true)
              ∧ -2 ^ 63 ≤ (if neg then -(literalMagnitude b body : Int)
                            else (literalMagnitude b body : Int))
              ∧ (if neg then -(literalMagnitude b body : Int)
                  else (literalMagnitude b body : Int)) ≤ 2 ^ 63 - 1) := by
      intro neg body
      constructor
      · rintro ⟨v, hv⟩
        cases hu : ParseUint body b with
        | error e => rw [hu] at hv; cases hv
        | ok un =>
          rw [hu] at hv
          simp only at hv
          obtain ⟨h1, h2, h3, h4⟩ := (ParseUint_ok_iff b hb body un).mp hu
          rw [← valFrom_eq_literalMagnitude b hb16 body h2, h3]
          refine ⟨h1, (allDigits_iff b hb16 body).mp h2, ?_⟩
          cases neg with
          | false =>
            by_cases hr : 2 ^ 63 ≤ un
            · rw [if_pos ⟨by simp, hr⟩] at hv; cases hv
            · simp only [Bool.false_eq_true, if_false]
              omega
          | true =>
            by_cases hr : 2 ^ 63 < un
            · rw [if_neg (by simp), if_pos ⟨rfl, hr⟩] at hv; cases hv
            · simp only [if_true]
              omega
      · rintro ⟨h1, h2, h3, h4⟩
        have h2' := (allDigits_iff b hb16 body).mpr h2
        rw [← valFrom_eq_literalMagnitude b hb16 body h2'] at h3 h4
        have hlt : valFrom b 0 body < 2 ^ 64 := by
          cases neg with
          | false => simp only [Bool.false_eq_true, if_false] at h4; omega
          | true => simp only [if_true] at h3; omega
        rw [(ParseUint_ok_iff b hb body _).mpr ⟨h1, h2', rfl, hlt⟩]
        simp only
        cases neg with
        | false =>
          simp only [Bool.false_eq_true, if_false] at h4
          rw [if_neg (by rintro ⟨_, h⟩; omega), if_neg (by simp)]
          exact ⟨_, rfl⟩
        | true =>
          simp only [if_true] at h3
          rw [if_neg (by simp), if_neg (by rintro ⟨_, h⟩; omega)]
          exact ⟨_, rfl⟩
    by_cases h43 : c = 43
    · subst h43
      exact key false rest
    by_cases h45 : c = 45
    · subst h45
      exact key true rest
    · have hn : literalNegative (c :: rest) = false := by simp [literalNegative, h45]
      have hd : literalDigits (c :: rest) = c :: rest := by simp [literalDigits, h43, h45]
      have := key false (c :: rest)
      unfold isIntLiteral literalValue
      rw [hn, hd]
      unfold ParseInt
      simp only [if_neg h43, if_neg h45]
      have hdec : decide (c = 45) = false := by simp [h45]
      rw [hdec]
      exact this

/-- The parts are parsed one after the other: the loop fails exactly when `ParseInt`
rejects one of them. -/
theorem parseParts_error_iff (b : Nat) (segs : List GoString) (a : Int) :
    (∃ e, parseParts b segs a = .error e) ↔ ∃ seg ∈ segs, ¬ ∃ v, ParseInt seg b = .ok v := by
  induction segs generalizing a with
  | nil => simp [parseParts]
  | cons part rest ih =>
    rw [parseParts]
    cases hp : ParseInt part b with
    | error e =>
      simp only
      constructor
      · intro _
        exact ⟨part, by simp, by rw [hp]; rintro ⟨v, hv⟩; cases hv⟩
      · intro _
        exact ⟨e, rfl⟩
    | ok v =>
      simp only
      rw [ih]
      constructor
      · rintro ⟨seg, hs, hn⟩
        exact ⟨seg, by simp [hs], hn⟩
      · rintro ⟨seg, hs, hn⟩
        rcases List.mem_cons.mp hs with rfl | hs
        · exact absurd ⟨v, hp⟩ hn
        · exact ⟨seg, hs, hn⟩

theorem formatOutput_error (v : Int) (dst : GoString)
    (hdst : dst ∈ [str "binary", str "hexadecimal", str "decimal"]) :
    (formatOutput v dst).2 = str "" := by
  have h : dst = str "binary" ∨ dst = str "hexadecimal" ∨ dst = str "decimal" := by
    simpa using hdst
  rcases h with rfl | rfl | rfl
  · rw [formatOutput_binary]
  · rw [formatOutput_hexadecimal]
  · rw [formatOutput_decimal]

theorem inv_init : Inv initConverter := by
  refine ⟨rfl, Or.inl ⟨rfl, rfl, ?_, ?_⟩⟩ <;> decide

theorem index_baseNames (i : Int) (h0 : 0 ≤ i) (h3 : i < 3) :
    ∃ b, index baseNames i = some b ∧ b ∈ baseNames := by
  have : i = 0 ∨ i = 1 ∨ i = 2 := by omega
  rcases this with rfl | rfl | rfl
  · exact ⟨str "binary", by decide, by decide⟩
  · exact ⟨str "hexadecimal", by decide, by decide⟩
  · exact ⟨str "decimal", by decide, by decide⟩

theorem index_removeChoice (t : GoString) (ht : t ∈ baseNames) (i : Int) (h0 : 0 ≤ i)
    (h2 : i < 2) :
    ∃ b, index (removeChoice baseNames t) i = some b ∧ b ∈ removeChoice baseNames t ∧ b ≠ t := by
  have hi : i = 0 ∨ i = 1 := by omega
  have ht' : t = str "binary" ∨ t = str "hexadecimal" ∨ t = str "decimal" := by
    simpa [baseNames] using ht
  rcases ht' with rfl | rfl | rfl <;> rcases hi with rfl | rfl
  · exact ⟨str "hexadecimal", by decide, by decide, by decide⟩
  · exact ⟨str "decimal", by decide, by decide, by decide⟩
  · exact ⟨str "binary", by decide, by decide, by decide⟩
  · exact ⟨str "decimal", by decide, by decide, by decide⟩
  · exact ⟨str "binary", by decide, by decide, by decide⟩
  · exact ⟨str "hexadecimal", by decide, by decide, by decide⟩

theorem length_removeChoice (t : GoString) (ht : t ∈ baseNames) :
    (removeChoice baseNames t).length = 2 := by
  have ht' : t = str "binary" ∨ t = str "hexadecimal" ∨ t = str "decimal" := by
    simpa [baseNames] using ht
  rcases ht' with rfl | rfl | rfl <;> decide

theorem update_outcome (c : converter) (msg : Msg) : Outcome c (Update c msg) := by
  cases msg with
  | other => exact Outcome.same _
  | key k =>
    unfold Update
    simp only
    by_cases h1 : k = str "ctrl+c" ∨ k = str "q"
    · rw [if_pos h1]; exact Outcome.same _
    rw [if_neg h1]
    by_cases h2 : k = str "r"
    · rw [if_pos h2]
      by_cases h : c.step > 0
      · rw [if_pos h]; exact Outcome.reset h
      · rw [if_neg h]; exact Outcome.same _
    rw [if_neg h2]
    by_cases h3 : k = str "up" ∨ k = str "k"
    · rw [if_pos h3]
      by_cases h : c.cursorPosition > 0
      · rw [if_pos h]; exact Outcome.up h
      · rw [if_neg h]; exact Outcome.same _
    rw [if_neg h3]
    by_cases h4 : k = str "down" ∨ k = str "j"
    · rw [if_pos h4]
      by_cases h : c.step = 0 ∧ c.cursorPosition < (c.inputTypeChoices.length : Int) - 1
      · rw [if_pos h]; exact Outcome.down0 h.1 h.2
      rw [if_neg h]
      by_cases h' : c.step = 1 ∧ c.cursorPosition < (c.outputTypeChoices.length : Int) - 1
      · rw [if_pos h']; exact Outcome.down1 h'.1 h'.2
      · rw [if_neg h']; exact Outcome.same _
    rw [if_neg h4]
    by_cases h5 : k = str "enter"
    · rw [if_pos h5]
      by_cases s0 : c.step = 0
      · rw [if_pos s0]
        cases hi : index c.inputTypeChoices c.cursorPosition with
        | none => exact Outcome.enter0Panic s0 hi
        | some choice => exact Outcome.enter0 choice s0 hi
      rw [if_neg s0]
      by_cases s1 : c.step = 1
      · rw [if_pos s1]
        cases hi : index c.outputTypeChoices c.cursorPosition with
        | none => exact Outcome.enter1Panic s1 hi
        | some choice =>
          simp only
          by_cases hne : choice ≠ c.inputType
          · rw [if_pos hne]; exact Outcome.enter1 choice s1 hi hne
          · rw [if_neg hne]; exact Outcome.enter1Same choice s1 hi (not_not.mp hne)
      rw [if_neg s1]
      by_cases s2 : c.step = 2
      · rw [if_pos s2]
        by_cases he : (convert c.input c.inputType c.outputType).2 = str ""
        · rw [if_pos he]; exact Outcome.enter2 s2 he
        · rw [if_neg he]; exact Outcome.enter2Err s2 he
      rw [if_neg s2]
      by_cases s3 : c.step = 3
      · rw [if_pos s3]; exact Outcome.enter3 s3
      · rw [if_neg s3]; exact Outcome.same _
    rw [if_neg h5]
    by_cases h6 : k = str "backspace"
    · rw [if_pos h6]
      by_cases h : c.step = 2 ∧ c.input.length > 0
      · rw [if_pos h]; exact Outcome.backspace h.1 h.2
      · rw [if_neg h]; exact Outcome.same _
    rw [if_neg h6]
    by_cases h : c.step = 2
    · rw [if_pos h]; exact Outcome.append k h
    · rw [if_neg h]; exact Outcome.same _

theorem inv_update (c c' : converter) (msg : Msg) (cmd : Cmd) (h : Inv c)
    (hu : Update c msg = some (c', cmd)) : Inv c' := by
  have ho := update_outcome c msg
  rw [hu] at ho
  obtain ⟨hin, hc⟩ := h
  cases ho with
  | same => exact ⟨hin, hc⟩
  | reset => exact inv_init
  | enter3 => exact inv_init
  | up hpos =>
    refine ⟨hin, ?_⟩
    rcases hc with ⟨h0, ho, hl, hu⟩ | ⟨h1, hm, ho, hl, hu⟩ | h23
    · exact Or.inl ⟨h0, ho, by show 0 ≤ c.cursorPosition - 1; omega, by show c.cursorPosition - 1 < 3; omega⟩
    · exact Or.inr (Or.inl ⟨h1, hm, ho, by show 0 ≤ c.cursorPosition - 1; omega, by show c.cursorPosition - 1 < 2; omega⟩)
    · exact Or.inr (Or.inr h23)
  | down0 hs hlt =>
    refine ⟨hin, ?_⟩
    rcases hc with ⟨h0, ho, hl, hu⟩ | ⟨h1, hm, ho, hl, hu⟩ | ⟨h23, _⟩
    · rw [hin] at hlt
      have : (baseNames.length : Int) = 3 := rfl
      exact Or.inl ⟨h0, ho, by show 0 ≤ c.cursorPosition + 1; omega, by show c.cursorPosition + 1 < 3; omega⟩
    · omega
    · omega
  | down1 hs hlt =>
    refine ⟨hin, ?_⟩
    rcases hc with ⟨h0, ho, hl, hu⟩ | ⟨h1, hm, ho, hl, hu⟩ | ⟨h23, _⟩
    · omega
    · rw [ho, length_removeChoice _ hm] at hlt
      exact Or.inr (Or.inl ⟨h1, hm, ho, by show 0 ≤ c.cursorPosition + 1; omega, by show c.cursorPosition + 1 < 2; omega⟩)
    · omega
  | enter0 choice hs hi =>
    refine ⟨hin, ?_⟩
    rcases hc with ⟨h0, ho, hl, hu⟩ | ⟨h1, _⟩ | ⟨h23, _⟩
    · obtain ⟨b, hb, hmem⟩ := index_baseNames c.cursorPosition hl hu
      rw [hin, hb] at hi
      have hbc : b = choice := Option.some.inj hi
      subst hbc
      refine Or.inr (Or.inl ⟨?_, hmem, ?_, ?_, ?_⟩)
      · show c.step + 1 = 1; omega
      · show removeChoice c.outputTypeChoices b = removeChoice baseNames b; rw [ho]
      · show (0 : Int) ≤ 0; omega
      · show (0 : Int) < 2; omega
    · omega
    · omega
  | enter1 choice hs hi hne =>
    refine ⟨hin, ?_⟩
    rcases hc with ⟨h0, _⟩ | ⟨h1, hm, ho, hl, hu⟩ | ⟨h23, _⟩
    · omega
    · obtain ⟨b, hb, hmem, hbne⟩ := index_removeChoice c.inputType hm c.cursorPosition hl hu
      rw [ho, hb] at hi
      have hbc : b = choice := Option.some.inj hi
      subst hbc
      refine Or.inr (Or.inr ⟨?_, hm, ho, ?_, hbne⟩)
      · left; show c.step + 1 = 2; omega
      · show b ∈ c.outputTypeChoices; rw [ho]; exact hmem
    · omega
  | enter1Same choice hs hi heq =>
    rcases hc with ⟨h0, _⟩ | ⟨h1, hm, ho, hl, hu⟩ | ⟨h23, _⟩
    · omega
    · obtain ⟨b, hb, hmem, hbne⟩ := index_removeChoice c.inputType hm c.cursorPosition hl hu
      rw [ho, hb] at hi
      have hbc : b = choice := Option.some.inj hi
      subst hbc
      exact absurd heq hbne
    · omega
  | enter2 hs he =>
    refine ⟨hin, ?_⟩
    rcases hc with ⟨h0, _⟩ | ⟨h1, _⟩ | ⟨h23, hm, ho, hot⟩
    · omega
    · omega
    · exact Or.inr (Or.inr ⟨by right; show c.step + 1 = 3; omega, hm, ho, hot⟩)
  | enter2Err hs he =>
    refine ⟨hin, ?_⟩
    rcases hc with ⟨h0, _⟩ | ⟨h1, _⟩ | ⟨h23, hm, ho, hot⟩
    · omega
    · omega
    · exact Or.inr (Or.inr ⟨h23, hm, ho, hot⟩)
  | backspace hs hl =>
    refine ⟨hin, ?_⟩
    rcases hc with ⟨h0, _⟩ | ⟨h1, _⟩ | ⟨h23, hm, ho, hot⟩
    · omega
    · omega
    · exact Or.inr (Or.inr ⟨h23, hm, ho, hot⟩)
  | append k hs =>
    refine ⟨hin, ?_⟩
    rcases hc with ⟨h0, _⟩ | ⟨h1, _⟩ | ⟨h23, hm, ho, hot⟩
    · omega
    · omega
    · exact Or.inr (Or.inr ⟨h23, hm, ho, hot⟩)

theorem reachable_inv (c : converter) (h : Reachable c) : Inv c := by
  induction h with
  | init => exact inv_init
  | update c c' msg cmd _ hu ih => exact inv_update c c' msg cmd ih hu

theorem reachable_stateEnterValue : Reachable stateEnterValue := by
  refine Reachable.update _ _ (.key (str "enter")) .nil
    (Reachable.update _ _ (.key (str "enter")) .nil Reachable.init rfl) ?_
  decide

theorem convert_error_result (input inputType outputType : GoString)
    (h : (convert input inputType outputType).2 ≠ str "") :
    (convert input inputType outputType).1 = str "" := by
  unfold convert at h ⊢
  cases hp : parseInput input inputType with
  | error e => rfl
  | ok decimal =>
    rw [hp] at h
    simp only at h ⊢
    unfold formatOutput at h ⊢
    by_cases h1 : outputType = str "binary"
    · rw [if_pos h1] at h; exact absurd rfl h
    rw [if_neg h1] at h ⊢
    by_cases h2 : outputType = str "hexadecimal"
    · rw [if_pos h2] at h; exact absurd rfl h
    rw [if_neg h2] at h ⊢
    by_cases h3 : outputType = str "decimal"
    · rw [if_pos h3] at h; exact absurd rfl h
    rw [if_neg h3]

/-- The model of `strings.Split` agrees with the library function `List.splitOn`. -/
theorem stringsSplit_eq_splitOn (s : GoString) : stringsSplit s = s.splitOn dot := by
  induction s with
  | nil => rfl
  | cons b s ih =>
    rw [stringsSplit, List.splitOn, List.splitOnP_cons, ← List.splitOn, ← ih]
    by_cases hb : b = dot
    · rw [if_pos hb, if_pos (by simpa using hb)]
    · rw [if_neg hb, if_neg (by simpa using hb)]
      cases h : stringsSplit s with
      | nil =>
        exfalso
        revert h
        cases s with
        | nil => simp [stringsSplit]
        | cons c t =>
          rw [stringsSplit]
          split_ifs
          · simp
          · split <;> simp
      | cons seg segs => rfl

theorem filter_stringsJoin (chunks : List GoString) (h : ∀ ch ∈ chunks, dot ∉ ch) :
    (stringsJoin chunks (str ".")).filter (fun c => decide (c ≠ dot)) = chunks.flatten := by
  have hself : ∀ ch : GoString, dot ∉ ch → ch.filter (fun c => decide (c ≠ dot)) = ch := by
    intro ch hc
    rw [List.filter_eq_self]
    intro a ha
    have : a ≠ dot := fun e => hc (e ▸ ha)
    simpa using this
  induction chunks with
  | nil => rfl
  | cons a rest ih =>
    cases rest with
    | nil =>
      rw [stringsJoin, hself a (h a (by simp))]
      simp
    | cons b rest =>
      have hdot : List.filter (fun c => decide (c ≠ dot)) (str ".") = [] := by decide
      rw [stringsJoin, List.filter_append, List.filter_append, hself a (h a (by simp)),
        ih (fun ch hc => h ch (by simp [hc])), hdot, List.append_nil, List.flatten_cons]
      rfl

theorem length_flatten_chunks (n : Nat) (chunks : List GoString)
    (h : ∀ ch ∈ chunks, ch.length = n) : chunks.flatten.length = chunks.length * n := by
  induction chunks with
  | nil => simp
  | cons a rest ih =>
    rw [List.flatten_cons, List.length_append, h a (by simp),
      ih (fun ch hc => h ch (by simp [hc])), List.length_cons]
    ring

/-- The output of the two chunking formatters for a non-negative value is aligned. -/
theorem alignedDigits_chunks (b n : Nat) (hb : 2 ≤ b) (hb16 : b ≤ 16) (hn : 1 ≤ n)
    (v : Int) (h0 : 0 ≤ v) (h63 : v < 2 ^ 63) :
    alignedDigits b n (stringsJoin
      (splitByN (padZero (((FormatInt v b).length + (n - 1)) / n * n) (FormatInt v b)) n)
      (str ".")) = true := by
  rw [FormatInt_nonneg v b h0]
  obtain ⟨_, c2, _⟩ := chunks_spec b n hb hb16 hn v.toNat (by omega)
  unfold alignedDigits
  simp only
  rw [filter_stringsJoin _ (fun ch hc => allDigits_nodot b ch (c2 ch hc).1),
    length_flatten_chunks n _ (fun ch hc => (c2 ch hc).2)]
  simp only [Bool.and_eq_true, List.all_eq_true, decide_eq_true_eq, Nat.mul_mod_left, and_true]
  intro c hc
  obtain ⟨ch, hch, hcc⟩ := List.mem_flatten.mp hc
  exact (allDigits_iff b hb16 ch).mp (c2 ch hch).1 c hcc

/-- For a non-negative accumulator the binary and the hexadecimal output are aligned. -/
theorem chunk_alignment_nonneg (v : Int) (h0 : 0 ≤ v) (h63 : v < 2 ^ 63) :
    alignedDigits 2 8 (formatBinary v) = true
    ∧ alignedDigits 16 2 (formatHexadecimal v) = true :=
  ⟨alignedDigits_chunks 2 8 (by omega) (by omega) (by omega) v h0 h63,
   alignedDigits_chunks 16 2 (by omega) (by omega) (by omega) v h0 h63⟩

theorem Update_reset (c : converter) :
    Update c (.key (str "r")) =
      if c.step > 0 then some (initConverter, .nil) else some (c, .nil) := by
  unfold Update
  simp only
  rw [if_neg (by decide), if_pos trivial]

theorem Update_up (c : converter) (k : GoString) (h : k = str "up" ∨ k = str "k") :
    Update c (.key k) =
      if c.cursorPosition > 0 then
        some ({ c with cursorPosition := c.cursorPosition - 1 }, .nil)
      else some (c, .nil) := by
  have h1 : ¬ (k = str "ctrl+c" ∨ k = str "q") := by
    rcases h with rfl | rfl <;> decide
  have h2 : ¬ k = str "r" := by
    rcases h with rfl | rfl <;> decide
  unfold Update
  simp only
  rw [if_neg h1, if_neg h2, if_pos h]

theorem Update_down (c : converter) (k : GoString) (h : k = str "down" ∨ k = str "j") :
    Update c (.key k) =
      if c.step = 0 ∧ c.cursorPosition < (c.inputTypeChoices.length : Int) - 1 then
        some ({ c with cursorPosition := c.cursorPosition + 1 }, .nil)
      else if c.step = 1 ∧ c.cursorPosition < (c.outputTypeChoices.length : Int) - 1 then
        some ({ c with cursorPosition := c.cursorPosition + 1 }, .nil)
      else some (c, .nil) := by
  have h1 : ¬ (k = str "ctrl+c" ∨ k = str "q") := by
    rcases h with rfl | rfl <;> decide
  have h2 : ¬ k = str "r" := by
    rcases h with rfl | rfl <;> decide
  have h3 : ¬ (k = str "up" ∨ k = str "k") := by
    rcases h with rfl | rfl <;> decide
  unfold Update
  simp only
  rw [if_neg h1, if_neg h2, if_neg h3, if_pos h]

theorem Update_enter_step3 (c : converter) (h : c.step = 3) :
    Update c (.key (str "enter")) = some (initConverter, .nil) := by
  unfold Update
  simp only
  rw [if_neg (by decide), if_neg (by decide), if_neg (by decide), if_neg (by decide),
    if_pos trivial, if_neg (by omega), if_neg (by omega), if_neg (by omega), if_pos h]

theorem Update_backspace (c : converter) :
    Update c (.key (str "backspace")) =
      if c.step = 2 ∧ c.input.length > 0 then
        some ({ c with input := c.input.take (c.input.length - 1) }, .nil)
      else some (c, .nil) := by
  unfold Update
  simp only
  rw [if_neg (by decide), if_neg (by decide), if_neg (by decide), if_neg (by decide),
    if_neg (by decide), if_pos trivial]

theorem Update_append (c : converter) (k : GoString) (h : k ∉ reservedKeys) :
    Update c (.key k) =
      if c.step = 2 then some ({ c with input := c.input ++ k }, .nil)
      else some (c, .nil) := by
  simp only [reservedKeys, List.mem_cons, List.mem_singleton, not_or, List.not_mem_nil,
    or_false] at h
  obtain ⟨k1, k2, k3, k4, k5, k6, k7, k8, k9⟩ := h
  unfold Update
  simp only
  rw [if_neg (by rintro (e | e) <;> contradiction), if_neg k3,
    if_neg (by rintro (e | e) <;> contradiction),
    if_neg (by rintro (e | e) <;> contradiction), if_neg k8, if_neg k9]

/-- Outside the two choice steps the keys `down` and `j` leave the state unchanged. -/
theorem Update_down_outside (c : converter) (k : GoString) (h : k = str "down" ∨ k = str "j")
    (hs : c.step = 2 ∨ c.step = 3) : Update c (.key k) = some (c, .nil) := by
  rw [Update_down c k h, if_neg (by omega), if_neg (by omega)]

/-- In a choice step with the cursor inside the active list of length `n`, the cursor
keys move the cursor by one and stop at the two ends of the list. -/
theorem Update_cursor_choice_steps (c : converter) (n : Nat)
    (hs : (c.step = 0 ∧ c.inputTypeChoices.length = n)
      ∨ (c.step = 1 ∧ c.outputTypeChoices.length = n))
    (h0 : 0 ≤ c.cursorPosition) (hn : c.cursorPosition < n) :
    (∀ k, k = str "up" ∨ k = str "k" →
      Update c (.key k) =
        some ({ c with cursorPosition := max (c.cursorPosition - 1) 0 }, .nil))
    ∧ (∀ k, k = str "down" ∨ k = str "j" →
      Update c (.key k) =
        some ({ c with cursorPosition := min (c.cursorPosition + 1) ((n : Int) - 1) }, .nil)) := by
  constructor
  · intro k hk
    rw [Update_up c k hk]
    by_cases hp : c.cursorPosition > 0
    · rw [if_pos hp, max_eq_left (by omega)]
    · rw [if_neg hp]
      have : c.cursorPosition = 0 := by omega
      rw [this]
      have hc : c = { c with cursorPosition := 0 } := by rw [← this]
      rw [max_eq_right (by omega)]
      exact congrArg (fun x => some (x, Cmd.nil)) hc
  · intro k hk
    rw [Update_down c k hk]
    rcases hs with ⟨s0, hl⟩ | ⟨s1, hl⟩
    · by_cases hp : c.cursorPosition < (n : Int) - 1
      · rw [if_pos ⟨s0, by rw [hl]; exact hp⟩, min_eq_left (by omega)]
      · rw [if_neg (by rw [hl]; rintro ⟨_, h⟩; exact hp h), if_neg (by omega),
          min_eq_right (by omega)]
        have : c.cursorPosition = (n : Int) - 1 := by omega
        rw [← this]
    · by_cases hp : c.cursorPosition < (n : Int) - 1
      · rw [if_neg (by omega), if_pos ⟨s1, by rw [hl]; exact hp⟩, min_eq_left (by omega)]
      · rw [if_neg (by omega), if_neg (by rw [hl]; rintro ⟨_, h⟩; exact hp h),
          min_eq_right (by omega)]
        have : c.cursorPosition = (n : Int) - 1 := by omega
        rw [← this]

/-- A key of one byte appended in step 2 is removed again by backspace, and outside step
2 neither an appended key nor backspace changes the state. -/
theorem backspace_undoes_single_byte (c : converter) (k : GoString) (hk : k ∉ reservedKeys) :
    (c.step = 2 → k.length = 1 →
      Update c (.key k) = some ({ c with input := c.input ++ k }, .nil)
      ∧ Update { c with input := c.input ++ k } (.key (str "backspace")) = some (c, .nil))
    ∧ (c.step ≠ 2 → Update c (.key k) = some (c, .nil)
        ∧ Update c (.key (str "backspace")) = some (c, .nil)) := by
  constructor
  · intro hs hl
    refine ⟨by rw [Update_append c k hk, if_pos hs], ?_⟩
    rw [Update_backspace, if_pos ⟨hs, by simp [hl]⟩]
    simp only [List.length_append, hl, Nat.add_sub_cancel, List.take_left']
  · intro hs
    exact ⟨by rw [Update_append c k hk, if_neg hs],
      by rw [Update_backspace, if_neg (by rintro ⟨h, _⟩; exact hs h)]⟩

theorem viewChoices_eq (cur : Int) (choices : List GoString) (i : Nat) (s : GoString) :
    viewChoices cur choices i s = s ++ (markedLines cur i choices).flatten := by
  induction choices generalizing i s with
  | nil => simp [viewChoices, markedLines]
  | cons ch rest ih =>
    have hline : (if cur = (i : Int) then str ">" else str " ") ++ str " " ++ ch ++ str "\n"
        = choiceLine (decide (cur = (i : Int))) ch := by
      unfold choiceLine
      by_cases h : cur = (i : Int)
      · simp [h]
      · simp [h]
    rw [viewChoices, ih, hline, markedLines, List.flatten_cons, List.append_assoc]

theorem length_markedLines (cur : Int) (i : Nat) (choices : List GoString) :
    (markedLines cur i choices).length = choices.length := by
  induction choices generalizing i with
  | nil => rfl
  | cons ch rest ih => simp [markedLines, ih]

theorem getElem?_markedLines (cur : Int) (i : Nat) (choices : List GoString) (j : Nat) :
    (markedLines cur i choices)[j]?
      = (choices[j]?).map (fun ch => choiceLine (decide (cur = ((i + j : Nat) : Int))) ch) := by
  induction choices generalizing i j with
  | nil => simp [markedLines]
  | cons ch rest ih =>
    cases j with
    | zero => simp [markedLines]
    | succ j =>
      simp only [markedLines, List.getElem?_cons_succ]
      rw [ih]
      have : i + 1 + j = i + (j + 1) := by omega
      rw [this]

theorem head_choiceLine (marked : Bool) (ch : GoString) :
    (choiceLine marked ch).head? = some (if marked then 62 else 32) := by
  cases marked <;> rfl

theorem countP_markedLines (cur : Int) (i : Nat) (choices : List GoString) :
    (markedLines cur i choices).countP (fun l => decide (l.head? = some 62))
      = if (i : Int) ≤ cur ∧ cur < (i : Int) + choices.length then 1 else 0 := by
  induction choices generalizing i with
  | nil =>
    rw [if_neg (by simp)]
    rfl
  | cons ch rest ih =>
    rw [markedLines, List.countP_cons, ih, head_choiceLine]
    have hm : (decide (some (if decide (cur = (i : Int)) = true then (62 : UInt8) else 32)
        = some 62) = true) ↔ cur = (i : Int) := by
      by_cases h : cur = (i : Int)
      · simp [h]
      · simp [h]
    simp only [hm, List.length_cons]
    push_cast
    by_cases h : cur = (i : Int)
    · rw [if_neg (by omega), if_pos h, if_pos (by omega)]
    · rw [if_neg h]
      by_cases h2 : (i : Int) + 1 ≤ cur ∧ cur < (i : Int) + 1 + rest.length
      · rw [if_pos h2, if_pos (by omega)]
      · rw [if_neg h2, if_neg (by omega)]

theorem View_eq (ac : GoString) (c : converter) :
    View ac c = viewStep ac c ++ helpLines c.step := by
  unfold View helpLines
  simp only
  by_cases hpos : c.step > 0
  · rw [if_pos hpos, if_pos hpos, List.append_assoc, List.append_assoc, List.append_assoc]
  · rw [if_neg hpos, if_neg hpos, List.append_nil, List.append_assoc]

theorem viewStep_zero (ac : GoString) (c : converter) (h : c.step = 0) :
    viewStep ac c = str "What type of input would you like to convert?\n\n"
      ++ (markedLines c.cursorPosition 0 c.inputTypeChoices).flatten := by
  unfold viewStep
  rw [if_pos h, viewChoices_eq]

theorem viewStep_one (ac : GoString) (c : converter) (h : c.step = 1) :
    viewStep ac c = str "What type of output would you like?\n\n"
      ++ (markedLines c.cursorPosition 0 c.outputTypeChoices).flatten := by
  unfold viewStep
  rw [if_neg (by omega), if_pos h, viewChoices_eq]

theorem or_shift_mod (x y m : Nat) :
    ((x ||| y) * 2 ^ m) % 2 ^ 64 = (x * 2 ^ m % 2 ^ 64) ||| (y * 2 ^ m % 2 ^ 64) := by
  apply Nat.eq_of_testBit_eq
  intro i
  simp only [← Nat.shiftLeft_eq, Nat.testBit_mod_two_pow, Nat.testBit_or, Nat.testBit_shiftLeft]
  cases decide (i < 64) <;> cases decide (i ≥ m) <;> simp

theorem toUint64_lt (i : Int) : toUint64 i < 2 ^ 64 := by
  unfold toUint64
  have h1 : 0 ≤ i % 2 ^ 64 := Int.emod_nonneg _ (by norm_num)
  have h2 : i % 2 ^ 64 < 2 ^ 64 := Int.emod_lt_of_pos _ (by norm_num)
  omega

theorem toUint64_toInt64 (u : Nat) (h : u < 2 ^ 64) : toUint64 (toInt64 u) = u := by
  unfold toInt64 toUint64
  rw [Nat.mod_eq_of_lt h]
  by_cases h63 : u < 2 ^ 63
  · rw [if_pos h63]
    have : (u : Int) % 2 ^ 64 = u := Int.emod_eq_of_lt (by omega) (by omega)
    rw [this]; rfl
  · rw [if_neg h63]
    have : ((u : Int) - 2 ^ 64) % 2 ^ 64 = u := by
      rw [Int.sub_emod, Int.emod_self, sub_zero, Int.emod_emod_of_dvd _ (dvd_refl _)]
      exact Int.emod_eq_of_lt (by omega) (by omega)
    rw [this]; rfl

theorem toInt64_range (u : Nat) : -2 ^ 63 ≤ toInt64 u ∧ toInt64 u < 2 ^ 63 := by
  unfold toInt64
  have : u % 2 ^ 64 < 2 ^ 64 := Nat.mod_lt _ (by norm_num)
  split_ifs <;> constructor <;> omega

theorem toUint64_shlOr (a v : Int) :
    toUint64 (shlOr a v) = (toUint64 a * 2 ^ 8 % 2 ^ 64) ||| toUint64 v := by
  unfold shlOr
  apply toUint64_toInt64
  exact Nat.or_lt_two_pow (Nat.mod_lt _ (by norm_num)) (toUint64_lt v)

theorem shlOr_eq_toInt64 (a v : Int) : shlOr a v = toInt64 (toUint64 (shlOr a v)) := by
  rw [toUint64_shlOr]
  rfl

/-- The bit pattern after folding `vs` from `a` is the pattern of `a` shifted by all the
bytes, joined with the pattern of the fold from `0`. -/
theorem toUint64_foldl (vs : List Int) (a : Int) :
    toUint64 (vs.foldl shlOr a)
      = (toUint64 a * 2 ^ (8 * vs.length) % 2 ^ 64) ||| toUint64 (vs.foldl shlOr 0) := by
  induction vs generalizing a with
  | nil =>
    have h0 : toUint64 0 = 0 := by decide
    simp only [List.foldl_nil, List.length_nil, Nat.mul_zero, Nat.pow_zero, Nat.mul_one, h0,
      Nat.or_zero]
    exact (Nat.mod_eq_of_lt (toUint64_lt a)).symm
  | cons v vs ih =>
    rw [List.foldl_cons, List.foldl_cons, ih (shlOr a v), ih (shlOr 0 v), toUint64_shlOr,
      toUint64_shlOr]
    have h0 : toUint64 0 = 0 := by decide
    rw [h0, Nat.zero_mul, Nat.zero_mod, Nat.zero_or, or_shift_mod, ← Nat.lor_assoc]
    congr 2
    rw [Nat.mod_mul_mod, List.length_cons, Nat.mul_assoc, ← Nat.pow_add]
    congr 3
    omega

/-- Eight or more values shift the starting accumulator out of the 64 bits. -/
theorem foldl_shlOr_start (vs : List Int) (a : Int) (h : 8 ≤ vs.length) :
    vs.foldl shlOr a = vs.foldl shlOr 0 := by
  have hu : toUint64 (vs.foldl shlOr a) = toUint64 (vs.foldl shlOr 0) := by
    rw [toUint64_foldl]
    have : toUint64 a * 2 ^ (8 * vs.length) % 2 ^ 64 = 0 := by
      have hk : 8 * vs.length = 64 + (8 * vs.length - 64) := by omega
      rw [hk, Nat.pow_add, ← Nat.mul_assoc, Nat.mul_comm (toUint64 a), Nat.mul_assoc]
      exact Nat.mul_mod_right _ _
    rw [this, Nat.zero_or]
  have hform : ∀ b : Int, vs.foldl shlOr b = toInt64 (toUint64 (vs.foldl shlOr b)) := by
    intro b
    obtain ⟨init, last, rfl⟩ : ∃ init last, vs = init ++ [last] := by
      rcases List.eq_nil_or_concat vs with h0 | ⟨init, last, hl⟩
      · rw [h0] at h; simp at h
      · exact ⟨init, last, by simpa using hl⟩
    rw [List.foldl_append, List.foldl_cons, List.foldl_nil]
    exact shlOr_eq_toInt64 _ _
  rw [hform a, hform 0, hu]

/-- The value `ParseInt` returns is the value the literal denotes. -/
theorem ParseInt_value (b : Nat) (hb : 2 ≤ b) (hb16 : b ≤ 16) (s : GoString) (v : Int)
    (h : ParseInt s b = .ok v) : v = literalValue b s := by
  cases s with
  | nil => simp [ParseInt] at h
  | cons c rest =>
    have key : ∀ (neg : Bool) (body : GoString),
        (match ParseUint body b with
          | .error e => (.error e : Except NumError Int)
          | .ok un =>
            if !neg ∧ 2 ^ 63 ≤ un then .error .rangeErr
            else if neg ∧ 2 ^ 63 < un then .error .rangeErr
            else .ok (if neg then -(un : Int) else (un : Int))) = .ok v →
        v = if neg then -(literalMagnitude b body : Int) else (literalMagnitude b body : Int) := by
      intro neg body hv
      cases hu : ParseUint body b with
      | error e => rw [hu] at hv; cases hv
      | ok un =>
        rw [hu] at hv
        simp only at hv
        obtain ⟨_, h2, h3, _⟩ := (ParseUint_ok_iff b hb body un).mp hu
        rw [← valFrom_eq_literalMagnitude b hb16 body h2, h3]
        cases neg with
        | false =>
          by_cases hr : 2 ^ 63 ≤ un
          · rw [if_pos ⟨by simp, hr⟩] at hv; cases hv
          · rw [if_neg (by rintro ⟨_, h⟩; exact hr h), if_neg (by simp)] at hv
            exact (Except.ok.inj hv).symm
        | true =>
          by_cases hr : 2 ^ 63 < un
          · rw [if_neg (by simp), if_pos ⟨rfl, hr⟩] at hv; cases hv
          · rw [if_neg (by simp), if_neg (by rintro ⟨_, h⟩; exact hr h)] at hv
            exact (Except.ok.inj hv).symm
    by_cases h43 : c = 43
    · subst h43
      exact key false rest h
    by_cases h45 : c = 45
    · subst h45
      exact key true rest h
    · have hn : literalNegative (c :: rest) = false := by simp [literalNegative, h45]
      have hd : literalDigits (c :: rest) = c :: rest := by simp [literalDigits, h43, h45]
      unfold literalValue
      rw [hn, hd]
      apply key false (c :: rest)
      unfold ParseInt at h
      simp only [if_neg h43, if_neg h45] at h
      have hdec : decide (c = 45) = false := by simp [h45]
      rw [hdec] at h
      exact h

theorem ParseInt_literal (b : Nat) (hb : 2 ≤ b) (hb16 : b ≤ 16) (s : GoString)
    (h : isIntLiteral b s) : ParseInt s b = .ok (literalValue b s) := by
  obtain ⟨v, hv⟩ := (ParseInt_ok_iff b hb hb16 s).mpr h
  rw [hv, ParseInt_value b hb hb16 s v hv]

/-- When every part is a literal, the loop folds the values of the parts. -/
theorem parseParts_literals (b : Nat) (hb : 2 ≤ b) (hb16 : b ≤ 16) (segs : List GoString)
    (a : Int) (h : ∀ seg ∈ segs, isIntLiteral b seg) :
    parseParts b segs a = .ok ((segs.map (literalValue b)).foldl shlOr a) := by
  induction segs generalizing a with
  | nil => rfl
  | cons seg rest ih =>
    rw [parseParts, ParseInt_literal b hb hb16 seg (h seg (by simp))]
    simp only [List.map_cons, List.foldl_cons]
    exact ih _ (fun x hx => h x (by simp [hx]))

theorem parseInput_radix (text src : GoString) (radix : Nat)
    (hsrc : (src, radix) ∈ [(str "binary", 2), (str "hexadecimal", 16), (str "decimal", 10)]) :
    parseInput text src = parseParts radix (stringsSplit text) 0 ∧ 2 ≤ radix ∧ radix ≤ 16 := by
  have h : (src = str "binary" ∧ radix = 2) ∨ (src = str "hexadecimal" ∧ radix = 16)
      ∨ (src = str "decimal" ∧ radix = 10) := by
    simpa using hsrc
  rcases h with ⟨rfl, rfl⟩ | ⟨rfl, rfl⟩ | ⟨rfl, rfl⟩
  · exact ⟨parseInput_binary text, by omega, by omega⟩
  · exact ⟨parseInput_hexadecimal text, by omega, by omega⟩
  · exact ⟨parseInput_decimal text, by omega, by omega⟩

theorem digits_getD (b : Nat) (hb : 2 ≤ b) (x i : Nat) :
    (Nat.digits b x).getD i 0 = x / b ^ i % b := by
  induction i generalizing x with
  | zero =>
    rcases Nat.eq_zero_or_pos x with rfl | hx
    · simp
    · rw [Nat.digits_def' (by omega) hx]
      simp
  | succ i ih =>
    rcases Nat.eq_zero_or_pos x with rfl | hx
    · simp
    · rw [Nat.digits_def' (by omega) hx, List.getD_cons_succ, ih, Nat.div_div_eq_div_mul,
        pow_succ, Nat.mul_comm]

/-- The loop of `FormatUint` writes the minimal digit string. -/
theorem formatBitsLoop_minimal (b : Nat) (hb : 2 ≤ b) (fuel u : Nat) (acc : GoString)
    (hf : 1 ≤ fuel) (hu : u < 2 ^ fuel) :
    formatBitsLoop b fuel u acc = minimalDigits b u ++ acc := by
  induction fuel generalizing u acc with
  | zero => omega
  | succ fuel ih =>
    rw [formatBitsLoop]
    by_cases hlt : u < b
    · rw [if_pos hlt]
      unfold minimalDigits
      by_cases h0 : u = 0
      · rw [if_pos h0, h0]; rfl
      · rw [if_neg h0, Nat.digits_of_lt b u h0 hlt]; rfl
    · rw [if_neg hlt]
      have hf' : 1 ≤ fuel := by
        rcases Nat.eq_zero_or_pos fuel with h0 | h0
        · subst h0; omega
        · exact h0
      have hu' : u / b < 2 ^ fuel := by
        have h2 : u / b ≤ u / 2 := Nat.div_le_div_left hb (by omega)
        have : u / 2 < 2 ^ fuel := by
          rw [Nat.div_lt_iff_lt_mul (by omega)]
          rw [pow_succ] at hu
          exact hu
        omega
      have hq : u / b ≠ 0 := by
        intro h
        have := (Nat.div_eq_zero_iff (by omega : 0 < b)).mp h
        omega
      rw [ih (u / b) _ hf' hu']
      unfold minimalDigits
      rw [if_neg hq, if_neg (by omega), Nat.digits_def' (by omega) (by omega : 0 < u)]
      simp

theorem FormatUint_minimal (b : Nat) (hb : 2 ≤ b) (u : Nat) (hu : u < 2 ^ 64) :
    FormatUint u b = minimalDigits b u := by
  unfold FormatUint
  rw [formatBitsLoop_minimal b hb 64 u [] (by omega) hu, List.append_nil]

theorem replicate_append_reverse (ds : List Nat) (W : Nat) (hW : ds.length ≤ W) :
    List.replicate (W - ds.length) 0 ++ ds.reverse
      = (List.range W).map (fun j => ds.getD (W - 1 - j) 0) := by
  apply List.ext_getElem
  · simp; omega
  · intro j h1 h2
    simp only [List.length_map, List.length_range] at h2
    rw [List.getElem_map, List.getElem_range]
    by_cases hj : j < W - ds.length
    · rw [List.getElem_append_left (by simpa using hj), List.getElem_replicate,
        List.getD_eq_default _ _ (by omega)]
    · rw [List.getElem_append_right (by simpa using hj), List.getElem_reverse]
      simp only [List.length_replicate]
      rw [List.getD_eq_getElem _ _ (by omega)]
      congr 1
      omega

theorem padZero_minimalDigits (b : Nat) (hb : 2 ≤ b) (u W : Nat)
    (hW : (minimalDigits b u).length ≤ W) :
    padZero W (minimalDigits b u) = fixedDigits b W u := by
  unfold padZero fixedDigits
  by_cases h0 : u = 0
  · subst h0
    unfold minimalDigits at hW ⊢
    rw [if_pos rfl] at hW ⊢
    simp only [List.length_singleton] at hW ⊢
    have h48 : digitByte 0 = 48 := by decide
    rw [h48]
    apply List.ext_getElem
    · simp; omega
    · intro j h1 h2
      simp only [List.getElem_map, List.getElem_range, Nat.zero_div, Nat.zero_mod, h48]
      by_cases hj : j < W - 1
      · rw [List.getElem_append_left (by simpa using hj), List.getElem_replicate]
      · rw [List.getElem_append_right (by simpa using hj)]
        simp
  · unfold minimalDigits at hW ⊢
    rw [if_neg h0] at hW ⊢
    simp only [List.length_map, List.length_reverse] at hW ⊢
    have h48 : (48 : UInt8) = digitByte 0 := by decide
    rw [h48, ← List.map_replicate, ← List.map_append, replicate_append_reverse _ W hW,
      List.map_map]
    apply List.map_congr_left
    intro j _
    simp only [Function.comp_apply, digits_getD b hb]

theorem digit_of_chunk (b n x p e : Nat) (he : e < n) :
    (x / b ^ p % b ^ n) / b ^ e % b = x / b ^ (p + e) % b := by
  have hsplit : b ^ n = b ^ e * b ^ (n - e) := by
    rw [← Nat.pow_add]
    congr 1
    omega
  have hdvd : b ∣ b ^ (n - e) := dvd_pow_self b (by omega)
  rw [hsplit, Nat.mod_mul_right_div_self, Nat.mod_mod_of_dvd _ hdvd, Nat.div_div_eq_div_mul,
    ← Nat.pow_add]

theorem length_fixedDigits (b k x : Nat) : (fixedDigits b k x).length = k := by
  simp [fixedDigits]

theorem fixedDigits_add (b n r x : Nat) :
    fixedDigits b (n + r) x = fixedDigits b n (x / b ^ r % b ^ n) ++ fixedDigits b r x := by
  unfold fixedDigits
  rw [List.range_add, List.map_append, List.map_map]
  congr 1
  · apply List.map_congr_left
    intro j hj
    have hj' : j < n := List.mem_range.mp hj
    rw [digit_of_chunk b n x r (n - 1 - j) (by omega)]
    have e : r + (n - 1 - j) = n + r - 1 - j := by omega
    rw [e]
  · apply List.map_congr_left
    intro j hj
    have hj' : j < r := List.mem_range.mp hj
    simp only [Function.comp_apply]
    have e : n + r - 1 - (n + j) = r - 1 - j := by omega
    rw [e]

/-- The loop of `splitByN` cuts the `m * n` digits of `x` into the `m` groups of `n`
digits, each the digits of one digit of `x` in base `b ^ n`. -/
theorem splitLoop_fixedDigits (b n : Nat) (hn : 1 ≤ n) (x m fuel : Nat)
    (hf : m * n ≤ fuel) :
    splitLoop n fuel (fixedDigits b (m * n) x)
      = (List.range m).map (fun i => fixedDigits b n (x / (b ^ n) ^ (m - 1 - i) % b ^ n)) := by
  induction m generalizing fuel with
  | zero =>
    have : fixedDigits b (0 * n) x = [] := by simp [fixedDigits]
    rw [this]
    cases fuel <;> simp [splitLoop]
  | succ m ih =>
    have hmn : (m + 1) * n = n + m * n := by rw [Nat.add_mul]; omega
    obtain ⟨f, rfl⟩ : ∃ f, fuel = f + 1 := ⟨fuel - 1, by omega⟩
    rw [splitLoop, if_neg (by rw [length_fixedDigits]; omega), hmn, fixedDigits_add b n (m * n) x,
      List.take_left' (length_fixedDigits _ _ _), List.drop_left' (length_fixedDigits _ _ _),
      ih f (by omega), List.range_succ_eq_map, List.map_cons, List.map_map]
    congr 1
    · have e : m + 1 - 1 - 0 = m := by omega
      rw [e, ← Nat.pow_mul, Nat.mul_comm n m]
    · apply List.map_congr_left
      intro i _
      simp only [Function.comp_apply]
      have e : m + 1 - 1 - i.succ = m - 1 - i := by omega
      rw [e]

theorem length_minimalDigits (b u : Nat) :
    (minimalDigits b u).length = if u = 0 then 1 else (Nat.digits b u).length := by
  unfold minimalDigits
  split_ifs <;> simp

theorem length_bytesBE (u : Nat) :
    (bytesBE u).length = if u = 0 then 1 else (Nat.digits 256 u).length := by
  unfold bytesBE
  split_ifs <;> simp

/-- The number of groups of `n` digits of base `b` is the number of digits of base
`b ^ n`. -/
theorem chunk_count (b n : Nat) (hb : 2 ≤ b) (hn : 1 ≤ n) (u : Nat) (hu : u ≠ 0) :
    ((Nat.digits b u).length + (n - 1)) / n = (Nat.digits (b ^ n) u).length := by
  have hbn : 1 < b ^ n := Nat.one_lt_pow (by omega) (by omega)
  rw [Nat.digits_len b u (by omega) hu, Nat.digits_len (b ^ n) u hbn hu]
  have hdm := Nat.div_add_mod (Nat.log b u + 1 + (n - 1)) n
  have hml := Nat.mod_lt (Nat.log b u + 1 + (n - 1)) (show n > 0 by omega)
  generalize (Nat.log b u + 1 + (n - 1)) / n = m at hdm ⊢
  generalize (Nat.log b u + 1 + (n - 1)) % n = r at hdm hml
  have hm1 : 1 ≤ m := by
    rcases Nat.eq_zero_or_pos m with h | h
    · subst h; simp at hdm; omega
    · exact h
  obtain ⟨k, rfl⟩ : ∃ k, m = k + 1 := ⟨m - 1, by omega⟩
  have hk : n * (k + 1) = n * k + n := by ring
  rw [hk] at hdm
  have hlog : Nat.log (b ^ n) u = k := by
    apply Nat.log_eq_of_pow_le_of_lt_pow
    · rw [← Nat.pow_mul]
      calc b ^ (n * k) ≤ b ^ Nat.log b u := Nat.pow_le_pow_right (by omega) (by omega)
        _ ≤ u := Nat.pow_log_le_self b hu
    · rw [← Nat.pow_mul]
      calc u < b ^ (Nat.log b u).succ := Nat.lt_pow_succ_log_self (by omega) u
        _ ≤ b ^ (n * (k + 1)) := Nat.pow_le_pow_right (by omega) (by rw [hk]; omega)
  rw [hlog]

theorem bytesBE_eq (u : Nat) :
    bytesBE u = (List.range (bytesBE u).length).map
      (fun i => u / 256 ^ ((bytesBE u).length - 1 - i) % 256) := by
  rw [length_bytesBE]
  unfold bytesBE
  by_cases h0 : u = 0
  · rw [if_pos h0, if_pos h0, h0]; rfl
  · rw [if_neg h0, if_neg h0]
    have h := replicate_append_reverse (Nat.digits 256 u) (Nat.digits 256 u).length (le_refl _)
    rw [Nat.sub_self, List.replicate_zero, List.nil_append] at h
    rw [h]
    apply List.map_congr_left
    intro j _
    exact digits_getD 256 (by omega) u _

/-- The chunks written for a `uint64` value are the fixed-width digits of its bytes. -/
theorem chunks_eq_bytes (b n : Nat) (hb : 2 ≤ b) (hn : 1 ≤ n) (hbn : b ^ n = 256) (u : Nat)
    (hu : u < 2 ^ 64) :
    splitByN (padZero (((FormatUint u b).length + (n - 1)) / n * n) (FormatUint u b)) n
      = (bytesBE u).map (fixedDigits b n) := by
  rw [FormatUint_minimal b hb u hu]
  have hcount : ((minimalDigits b u).length + (n - 1)) / n = (bytesBE u).length := by
    rw [length_minimalDigits, length_bytesBE]
    by_cases h0 : u = 0
    · rw [if_pos h0, if_pos h0]
      have : 1 + (n - 1) = n := by omega
      rw [this, Nat.div_self (by omega)]
    · rw [if_neg h0, if_neg h0, chunk_count b n hb hn u h0, hbn]
  have hW : (minimalDigits b u).length ≤ ((minimalDigits b u).length + (n - 1)) / n * n := by
    have := Nat.div_add_mod ((minimalDigits b u).length + (n - 1)) n
    have := Nat.mod_lt ((minimalDigits b u).length + (n - 1)) (show n > 0 by omega)
    rw [Nat.mul_comm]
    omega
  rw [padZero_minimalDigits b hb u _ hW, hcount]
  have hlen1 : 1 ≤ (bytesBE u).length := by
    rw [length_bytesBE]
    by_cases h0 : u = 0
    · rw [if_pos h0]
    · rw [if_neg h0]
      rcases Nat.eq_zero_or_pos (Nat.digits 256 u).length with h | h
      · exact absurd (Nat.digits_eq_nil_iff_eq_zero.mp (List.length_eq_zero.mp h)) h0
      · exact h
  have hpos : 1 ≤ (bytesBE u).length * n := Nat.mul_le_mul hlen1 hn
  unfold splitByN
  rw [if_neg (by rw [length_fixedDigits]; omega), length_fixedDigits,
    splitLoop_fixedDigits b n hn u _ _ (le_refl _), hbn]
  conv_rhs => rw [bytesBE_eq u]
  rw [List.map_map]
  rfl

theorem splitByN_flatten (s : GoString) (n m : Nat) (hn : 1 ≤ n) (hs : s ≠ [])
    (hlen : s.length = m * n) :
    (splitByN s n).flatten = s ∧ ∀ ch ∈ splitByN s n, ch.length = n := by
  have h0 : s.length ≠ 0 := fun h => hs (List.length_eq_zero.mp h)
  unfold splitByN
  rw [if_neg h0]
  obtain ⟨h1, _, h3⟩ := splitLoop_spec n hn s.length s m hlen (le_refl _)
  exact ⟨h1, h3⟩

theorem bytesBE_props (u : Nat) :
    Nat.ofDigits 256 (bytesBE u).reverse = u
    ∧ (∀ x ∈ bytesBE u, x < 256)
    ∧ ((bytesBE u).length = 1 ∨ (bytesBE u).head? ≠ some 0)
    ∧ (u = 0 → bytesBE u = [0]) := by
  unfold bytesBE
  by_cases h0 : u = 0
  · rw [if_pos h0, h0]
    refine ⟨by simp [Nat.ofDigits], by simp, Or.inl rfl, fun _ => rfl⟩
  · rw [if_neg h0]
    refine ⟨?_, ?_, Or.inr ?_, fun h => absurd h h0⟩
    · rw [List.reverse_reverse, Nat.ofDigits_digits]
    · intro x hx
      exact Nat.digits_lt_base (by omega) (List.mem_reverse.mp hx)
    · rw [List.head?_reverse]
      have hne : Nat.digits 256 u ≠ [] := fun h => h0 (Nat.digits_eq_nil_iff_eq_zero.mp h)
      rw [List.getLast?_eq_getLast _ hne]
      intro h
      exact Nat.getLast_digit_ne_zero 256 h0 (Option.some.inj h)

/-- The output of a chunking formatter for a non-negative value, for a base `b` and a
chunk width `n` with `b ^ n = 256`. -/
theorem format_chunks (b n : Nat) (hb : 2 ≤ b) (hn : 1 ≤ n) (hbn : b ^ n = 256) (v : Int)
    (h0 : 0 ≤ v) (h63 : v < 2 ^ 63) :
    FormatInt v b = minimalDigits b v.toNat
    ∧ stringsJoin (splitByN (padZero (((FormatInt v b).length + (n - 1)) / n * n)
          (FormatInt v b)) n) (str ".")
        = stringsJoin ((bytesBE v.toNat).map (fixedDigits b n)) (str ".")
    ∧ ((bytesBE v.toNat).map (fixedDigits b n)).flatten
        = padZero (((minimalDigits b v.toNat).length + (n - 1)) / n * n)
            (minimalDigits b v.toNat)
    ∧ (∀ ch ∈ (bytesBE v.toNat).map (fixedDigits b n), ch.length = n) := by
  have hu : v.toNat < 2 ^ 64 := by omega
  have hF : FormatInt v b = minimalDigits b v.toNat := by
    rw [FormatInt_nonneg v b h0, FormatUint_minimal b hb _ hu]
  have hch := chunks_eq_bytes b n hb hn hbn v.toNat hu
  rw [← FormatInt_nonneg v b h0] at hch
  refine ⟨hF, by rw [hch], ?_, ?_⟩
  · rw [← hch, hF]
    have hlen1 : 1 ≤ (minimalDigits b v.toNat).length := by
      rw [length_minimalDigits]
      split_ifs with hz
      · exact le_refl _
      · rcases Nat.eq_zero_or_pos (Nat.digits b v.toNat).length with h | h
        · exact absurd (Nat.digits_eq_nil_iff_eq_zero.mp (List.length_eq_zero.mp h)) hz
        · exact h
    have hW : (minimalDigits b v.toNat).length
        ≤ ((minimalDigits b v.toNat).length + (n - 1)) / n * n := by
      have := Nat.div_add_mod ((minimalDigits b v.toNat).length + (n - 1)) n
      have := Nat.mod_lt ((minimalDigits b v.toNat).length + (n - 1)) (show n > 0 by omega)
      rw [Nat.mul_comm]
      omega
    have hpl := length_padZero _ _ hW
    have hne : padZero (((minimalDigits b v.toNat).length + (n - 1)) / n * n)
        (minimalDigits b v.toNat) ≠ [] := by
      intro h
      have hz : (padZero (((minimalDigits b v.toNat).length + (n - 1)) / n * n)
          (minimalDigits b v.toNat)).length = 0 := by rw [h]; rfl
      rw [hpl] at hz
      omega
    exact (splitByN_flatten _ n _ hn hne hpl).1
  · intro ch hc
    obtain ⟨x, _, rfl⟩ := List.mem_map.mp hc
    exact length_fixedDigits b n x

theorem shlOr_eq_int64ShlOr (a v : Int) : shlOr a v = int64ShlOr a v := by
  unfold shlOr int64ShlOr toInt64
  rw [BitVec.toInt_eq_toNat_cond]
  simp only [BitVec.toNat_or, BitVec.toNat_shiftLeft, BitVec.toNat_ofInt, Nat.shiftLeft_eq]
  have hu : ∀ i : Int, (i % ((2 ^ 64 : Nat) : Int)).toNat = toUint64 i := by
    intro i
    unfold toUint64
    norm_num
  rw [hu, hu]
  have hlt : (toUint64 a * 2 ^ 8 % 2 ^ 64 ||| toUint64 v) < 2 ^ 64 :=
    Nat.or_lt_two_pow (Nat.mod_lt _ (by norm_num)) (toUint64_lt v)
  rw [Nat.mod_eq_of_lt hlt]
  by_cases h : (toUint64 a * 2 ^ 8 % 2 ^ 64 ||| toUint64 v) < 2 ^ 63
  · rw [if_pos h, if_pos (by omega)]
  · rw [if_neg h, if_neg (by omega)]
    norm_num

theorem stringsJoin_eq_intercalate (chunks : List GoString) :
    stringsJoin chunks (str ".") = List.intercalate [46] chunks := by
  have hd : str "." = [46] := by decide
  rw [hd]
  induction chunks with
  | nil => rfl
  | cons a rest ih =>
    cases rest with
    | nil => simp [stringsJoin, List.intercalate]
    | cons b rest =>
      rw [stringsJoin, ih]
      simp [List.intercalate, List.intersperse]
theorem fixedDigits_nodot (b n x : Nat) (hb : 1 ≤ b) (hb16 : b ≤ 16) :
    (46 : UInt8) ∉ fixedDigits b n x := by
  intro hm
  unfold fixedDigits at hm
  obtain ⟨j, _, hj⟩ := List.mem_map.mp hm
  have hlt : x / b ^ (n - 1 - j) % b < 16 :=
    Nat.lt_of_lt_of_le (Nat.mod_lt _ (by omega)) hb16
  have hd := digitOf_digitByte _ hlt
  rw [hj] at hd
  exact (digitOf_sign 46 _ hd).2.2 rfl

theorem FormatInt_signedDecimal (x : Int) (hlo : -2 ^ 63 ≤ x) (hhi : x < 2 ^ 63) :
    FormatInt x 10 = signedDecimal x := by
  unfold FormatInt signedDecimal
  rw [FormatUint_minimal 10 (by omega) x.natAbs (by omega)]

theorem foldl_shlOr_range (vs : List Int) :
    -2 ^ 63 ≤ vs.foldl shlOr 0 ∧ vs.foldl shlOr 0 < 2 ^ 63 := by
  rcases List.eq_nil_or_concat vs with h0 | ⟨init, last, hl⟩
  · subst h0
    simp
  · have hl' : vs = init ++ [last] := by simpa using hl
    rw [hl', List.foldl_append, List.foldl_cons, List.foldl_nil]
    unfold shlOr
    exact toInt64_range _

/-- The output of a chunking formatter for a non-negative value, stated without the
helper functions of the model. -/
theorem format_text (b n : Nat) (hb : 2 ≤ b) (hb16 : b ≤ 16) (hn : 1 ≤ n) (hbn : b ^ n = 256)
    (v : Int) (h0 : 0 ≤ v) (h63 : v < 2 ^ 63) :
    stringsJoin (splitByN (padZero (((FormatInt v b).length + (n - 1)) / n * n)
          (FormatInt v b)) n) (str ".")
        = List.intercalate [46] ((bytesBE v.toNat).map (fixedDigits b n))
    ∧ (List.intercalate [46] ((bytesBE v.toNat).map (fixedDigits b n))).splitOn 46
        = (bytesBE v.toNat).map (fixedDigits b n)
    ∧ ((bytesBE v.toNat).map (fixedDigits b n)).flatten
        = List.replicate
            (((minimalDigits b v.toNat).length + (n - 1)) / n * n
              - (minimalDigits b v.toNat).length) 48
          ++ minimalDigits b v.toNat := by
  obtain ⟨_, f2, f3, _⟩ := format_chunks b n hb hn hbn v h0 h63
  refine ⟨by rw [f2, stringsJoin_eq_intercalate], ?_, ?_⟩
  · apply List.splitOn_intercalate
    · intro l hl
      obtain ⟨x, _, rfl⟩ := List.mem_map.mp hl
      exact fixedDigits_nodot b n x (by omega) hb16
    · intro h
      have hlen := congrArg List.length h
      rw [List.length_map, length_bytesBE] at hlen
      split_ifs at hlen with hz
      · simp at hlen
      · simp only [List.length_nil] at hlen
        exact hz (Nat.digits_eq_nil_iff_eq_zero.mp (List.length_eq_zero.mp hlen))
  · rw [f3]
    rfl

theorem shlOr_funext : shlOr = int64ShlOr :=
  funext fun a => funext fun v => shlOr_eq_int64ShlOr a v

/-! ## The claims -/

/-- Claim C1 (round trip).  For every `n` with `0 <= n < 2^63` and each of the three
bases, converting the formatted text of `n` from the base to the same base succeeds
(empty error string) and returns exactly that text. -/
theorem round_trip (n : Int) (h0 : 0 ≤ n) (h63 : n < 2 ^ 63) :
    convert (formatBinary n) (str "binary") (str "binary") = (formatBinary n, str "")
    ∧ convert (formatHexadecimal n) (str "hexadecimal") (str "hexadecimal")
        = (formatHexadecimal n, str "")
    ∧ convert (formatDecimal n) (str "decimal") (str "decimal") = (formatDecimal n, str "") := by
  refine ⟨?_, ?_, ?_⟩
  · unfold convert
    rw [parseInput_binary, parseBinary_formatBinary n h0 h63]
    exact formatOutput_binary n
  · unfold convert
    rw [parseInput_hexadecimal, parseHexadecimal_formatHexadecimal n h0 h63]
    exact formatOutput_hexadecimal n
  · unfold convert
    rw [parseInput_decimal, parseDecimal_formatDecimal n h0 h63]
    exact formatOutput_decimal n

theorem round_trip_witness :
    convert (formatBinary 255) (str "binary") (str "binary") = (formatBinary 255, str "")
    ∧ convert (formatHexadecimal 255) (str "hexadecimal") (str "hexadecimal")
        = (formatHexadecimal 255, str "")
    ∧ convert (formatDecimal 255) (str "decimal") (str "decimal")
        = (formatDecimal 255, str "") :=
  round_trip 255 (by decide) (by decide)

/-- Claim C2 (base coherence) at its failing member, the minimum `int64`.  The decimal
text `-9223372036854775808` converts to binary and to hexadecimal without error, to a
text whose first chunk holds the minus sign after the padding zeros; converting that
text back to decimal fails with `Invalid input`.  The five other values of the
representative set pass the check for both bases. -/
theorem base_coherence_min_int64 :
    formatDecimal (-2 ^ 63) = str "-9223372036854775808"
    ∧ convert (str "-9223372036854775808") (str "decimal") (str "binary")
        = (str ("0000000-.10000000.00000000.00000000.00000000.00000000.00000000.00000000"
                ++ ".00000000"), str "")
    ∧ convert (str ("0000000-.10000000.00000000.00000000.00000000.00000000.00000000.00000000"
                ++ ".00000000")) (str "binary") (str "decimal")
        = (str "", str "Invalid input")
    ∧ convert (str "-9223372036854775808") (str "decimal") (str "hexadecimal")
        = (str "0-.80.00.00.00.00.00.00.00", str "")
    ∧ convert (str "0-.80.00.00.00.00.00.00.00") (str "hexadecimal") (str "decimal")
        = (str "", str "Invalid input")
    ∧ coherent (-2 ^ 63) (str "binary") = false
    ∧ coherent (-2 ^ 63) (str "hexadecimal") = false
    ∧ (∀ n ∈ [(0 : Int), 255, 256, 65535, 2 ^ 63 - 1],
        ∀ b2 ∈ [str "binary", str "hexadecimal"], coherent n b2 = true) := by
  refine ⟨?_, ?_, ?_, ?_, ?_, ?_, ?_, ?_⟩ <;> decide

/-- Claim C3 (chunk alignment) at a failing input, the accumulator `-1`.  The decimal
text `-1` converts to the binary text `000000-1` and to the hexadecimal text `-1`: the
minus sign counts as a character of the padded text, so neither output is a string of
digits of its radix.  The same accumulator comes from eight hexadecimal byte segments
`ff`. -/
theorem chunk_alignment_negative :
    convert (str "-1") (str "decimal") (str "binary") = (str "000000-1", str "")
    ∧ alignedDigits 2 8 (str "000000-1") = false
    ∧ convert (str "-1") (str "decimal") (str "hexadecimal") = (str "-1", str "")
    ∧ alignedDigits 16 2 (str "-1") = false
    ∧ convert (str "ff.ff.ff.ff.ff.ff.ff.ff") (str "hexadecimal") (str "binary")
        = (str "000000-1", str "") := by
  refine ⟨?_, ?_, ?_, ?_, ?_⟩ <;> decide

/-- Claim C4 (invalid input).  For a source base among binary (radix 2), hexadecimal
(radix 16) and decimal (radix 10) and a destination base among the three, `convert`
returns the empty result with the error `Invalid input` if and only if some segment of
the text between dots is not an optionally signed, non-empty integer literal of the
radix that fits in a 64-bit signed integer. -/
theorem invalid_input_iff (text src dst : GoString) (radix : Nat)
    (hsrc : (src, radix) ∈ [(str "binary", 2), (str "hexadecimal", 16), (str "decimal", 10)])
    (hdst : dst ∈ [str "binary", str "hexadecimal", str "decimal"]) :
    convert text src dst = (str "", str "Invalid input")
      ↔ ∃ seg ∈ stringsSplit text, ¬ isIntLiteral radix seg := by
  have hparse : parseInput text src = parseParts radix (stringsSplit text) 0
      ∧ 2 ≤ radix ∧ radix ≤ 16 := by
    have h : (src = str "binary" ∧ radix = 2) ∨ (src = str "hexadecimal" ∧ radix = 16)
        ∨ (src = str "decimal" ∧ radix = 10) := by
      simpa using hsrc
    rcases h with ⟨rfl, rfl⟩ | ⟨rfl, rfl⟩ | ⟨rfl, rfl⟩
    · exact ⟨parseInput_binary text, by omega, by omega⟩
    · exact ⟨parseInput_hexadecimal text, by omega, by omega⟩
    · exact ⟨parseInput_decimal text, by omega, by omega⟩
  obtain ⟨hp, hb, hb16⟩ := hparse
  have hiff : (∃ seg ∈ stringsSplit text, ¬ isIntLiteral radix seg)
      ↔ ∃ e, parseParts radix (stringsSplit text) 0 = .error e := by
    rw [parseParts_error_iff]
    constructor
    · rintro ⟨seg, hs, hn⟩
      exact ⟨seg, hs, fun h => hn ((ParseInt_ok_iff radix hb hb16 seg).mp h)⟩
    · rintro ⟨seg, hs, hn⟩
      exact ⟨seg, hs, fun h => hn ((ParseInt_ok_iff radix hb hb16 seg).mpr h)⟩
  rw [hiff, ← hp]
  unfold convert
  cases hq : parseInput text src with
  | error e =>
    simp only
    exact ⟨fun _ => ⟨e, rfl⟩, fun _ => trivial⟩
  | ok v =>
    simp only
    constructor
    · intro h
      have h2 := formatOutput_error v dst hdst
      rw [h] at h2
      exact absurd h2 (by decide)
    · rintro ⟨e, he⟩
      cases he

theorem invalid_input_iff_witness :
    convert (str "xyz") (str "decimal") (str "binary") = (str "", str "Invalid input")
    ∧ convert (str "") (str "binary") (str "decimal") = (str "", str "Invalid input") := by
  constructor
  · refine (invalid_input_iff (str "xyz") (str "decimal") (str "binary") 10
      (by decide) (by decide)).mpr ⟨str "xyz", by decide, ?_⟩
    rintro ⟨_, h, _⟩
    exact absurd (h 120 (by decide)) (by decide)
  · refine (invalid_input_iff (str "") (str "binary") (str "decimal") 2
      (by decide) (by decide)).mpr ⟨[], by decide, ?_⟩
    rintro ⟨h, _⟩
    exact h rfl

/-- Claim C5 (zero case).  The decimal text `0` converts to the binary text `00000000`
and to the hexadecimal text `00`, both without error. -/
theorem zero_case :
    convert (str "0") (str "decimal") (str "binary") = (str "00000000", str "")
    ∧ convert (str "0") (str "decimal") (str "hexadecimal") = (str "00", str "") := by
  constructor <;> decide

/-- Claim C6 (end-to-end scenario).  From the initial state, choosing decimal, then
hexadecimal, typing `255` and confirming ends in step 3 with output `ff`; choosing
hexadecimal, then binary, typing `ff.ab` and confirming ends in step 3 with output
`11111111.10101011`; and `convert` gives these two results without error. -/
theorem scenario_end_to_end :
    run initConverter
        [.key (str "down"), .key (str "down"), .key (str "enter"),
         .key (str "down"), .key (str "enter"),
         .key (str "2"), .key (str "5"), .key (str "5"), .key (str "enter")]
      = some { inputTypeChoices := [str "binary", str "hexadecimal", str "decimal"]
               outputTypeChoices := [str "binary", str "hexadecimal"]
               cursorPosition := 1
               inputType := str "decimal"
               outputType := str "hexadecimal"
               input := str "255"
               output := str "ff"
               step := 3
               error := str "" }
    ∧ run initConverter
        [.key (str "down"), .key (str "enter"), .key (str "enter"),
         .key (str "f"), .key (str "f"), .key (str "."), .key (str "a"), .key (str "b"),
         .key (str "enter")]
      = some { inputTypeChoices := [str "binary", str "hexadecimal", str "decimal"]
               outputTypeChoices := [str "binary", str "decimal"]
               cursorPosition := 0
               inputType := str "hexadecimal"
               outputType := str "binary"
               input := str "ff.ab"
               output := str "11111111.10101011"
               step := 3
               error := str "" }
    ∧ convert (str "255") (str "decimal") (str "hexadecimal") = (str "ff", str "")
    ∧ convert (str "ff.ab") (str "hexadecimal") (str "binary")
        = (str "11111111.10101011", str "") := by
  refine ⟨?_, ?_, ?_, ?_⟩ <;> decide

/-- Claim C7 (output-base exclusion).  In every reachable state with `step >= 1` the
input type is one of the three bases, the output choice list does not contain it and
is the list of the two other bases in their original order; and if `step >= 2` the
output type differs from the input type. -/
theorem output_base_exclusion (c : converter) (hr : Reachable c) (hs : 1 ≤ c.step) :
    c.inputType ∈ initConverter.inputTypeChoices
    ∧ c.inputType ∉ c.outputTypeChoices
    ∧ c.outputTypeChoices
        = initConverter.outputTypeChoices.filter (fun b => decide (b ≠ c.inputType))
    ∧ c.outputTypeChoices.length = 2
    ∧ (2 ≤ c.step → c.outputType ≠ c.inputType) := by
  obtain ⟨_, hc⟩ := reachable_inv c hr
  have key : ∀ t : GoString, t ∈ baseNames →
      t ∉ removeChoice baseNames t
      ∧ removeChoice baseNames t
          = initConverter.outputTypeChoices.filter (fun b => decide (b ≠ t))
      ∧ (removeChoice baseNames t).length = 2 := by
    intro t ht
    have ht' : t = str "binary" ∨ t = str "hexadecimal" ∨ t = str "decimal" := by
      simpa [baseNames] using ht
    rcases ht' with rfl | rfl | rfl <;> decide
  rcases hc with ⟨h0, _⟩ | ⟨h1, hm, ho, _⟩ | ⟨h23, hm, ho, _, hne⟩
  · omega
  · obtain ⟨k1, k2, k3⟩ := key c.inputType hm
    rw [ho]
    exact ⟨hm, k1, k2, k3, fun h2 => by omega⟩
  · obtain ⟨k1, k2, k3⟩ := key c.inputType hm
    rw [ho]
    exact ⟨hm, k1, k2, k3, fun _ => hne⟩

theorem output_base_exclusion_witness :
    stateEnterValue.inputType ∈ initConverter.inputTypeChoices
    ∧ stateEnterValue.inputType ∉ stateEnterValue.outputTypeChoices
    ∧ stateEnterValue.outputTypeChoices
        = initConverter.outputTypeChoices.filter
            (fun b => decide (b ≠ stateEnterValue.inputType))
    ∧ stateEnterValue.outputTypeChoices.length = 2
    ∧ (2 ≤ stateEnterValue.step → stateEnterValue.outputType ≠ stateEnterValue.inputType) :=
  output_base_exclusion stateEnterValue reachable_stateEnterValue (by decide)

/-- Claim C8 (confirm in EnterValue).  In a state with `step = 2`, enter runs `convert`
on the input: on success the new state has step 3, the converted text as output, an
empty error and the input unchanged; on failure it keeps step 2, records the error,
and has the input and the output empty.  No other field changes. -/
theorem confirm_enter_value (c : converter) (hs : c.step = 2) :
    Update c (.key (str "enter")) =
      some (if (convert c.input c.inputType c.outputType).2 = str "" then
              { c with
                step := 3
                output := (convert c.input c.inputType c.outputType).1
                error := str "" }
            else
              { c with
                error := (convert c.input c.inputType c.outputType).2
                input := str ""
                output := str "" }, .nil) := by
  have hu : Update c (.key (str "enter")) =
      if (convert c.input c.inputType c.outputType).2 = str "" then
        some ({ c with
                output := (convert c.input c.inputType c.outputType).1
                error := (convert c.input c.inputType c.outputType).2
                step := c.step + 1 }, .nil)
      else
        some ({ c with
                output := (convert c.input c.inputType c.outputType).1
                error := (convert c.input c.inputType c.outputType).2
                input := str "" }, .nil) := by
    unfold Update
    simp only
    rw [if_neg (by decide), if_neg (by decide), if_neg (by decide), if_neg (by decide),
      if_pos trivial, if_neg (by omega), if_neg (by omega), if_pos hs]
  rw [hu]
  by_cases he : (convert c.input c.inputType c.outputType).2 = str ""
  · rw [if_pos he, if_pos he, he, hs]; rfl
  · rw [if_neg he, if_neg he, convert_error_result _ _ _ he]

theorem confirm_enter_value_witness :
    Update stateTyped (.key (str "enter")) =
      some ({ stateTyped with step := 3, output := str "ff", error := str "" }, .nil) :=
  (confirm_enter_value stateTyped rfl).trans (by decide)

/-- Claim C9 (forward-only steps).  Whatever the state and the message, the state
`Update` returns is the fresh initial state or has the old step or the old step plus
one; and every reachable state has its step among 0, 1, 2, 3. -/
theorem forward_only_steps :
    (∀ (c c' : converter) (msg : Msg) (cmd : Cmd), Update c msg = some (c', cmd) →
        c' = initConverter ∨ c'.step = c.step ∨ c'.step = c.step + 1)
    ∧ (∀ c : converter, Reachable c → c.step = 0 ∨ c.step = 1 ∨ c.step = 2 ∨ c.step = 3) := by
  constructor
  · intro c c' msg cmd hu
    have ho := update_outcome c msg
    rw [hu] at ho
    cases ho <;> simp
  · intro c hr
    obtain ⟨_, hc⟩ := reachable_inv c hr
    rcases hc with ⟨h0, _⟩ | ⟨h1, _⟩ | ⟨h2 | h3, _⟩ <;> simp [*]

theorem forward_only_steps_witness :
    (stateEnterValue = initConverter ∨ stateEnterValue.step = (1 : Int)
        ∨ stateEnterValue.step = (1 : Int) + 1)
    ∧ (stateEnterValue.step = 0 ∨ stateEnterValue.step = 1 ∨ stateEnterValue.step = 2
        ∨ stateEnterValue.step = 3) :=
  ⟨forward_only_steps.1 { stateEnterValue with step := 1, outputType := str "" } stateEnterValue
      (.key (str "enter")) .nil (by decide),
   forward_only_steps.2 stateEnterValue reachable_stateEnterValue⟩

/-- Claim C10 (cursor bounds).  In every reachable state the cursor is a valid index
of the input choices in step 0 and of the output choices in step 1, the slice index
taken on confirm is in range, and `Update` never panics. -/
theorem cursor_in_bounds (c : converter) (hr : Reachable c) :
    (c.step = 0 → 0 ≤ c.cursorPosition ∧ c.cursorPosition < c.inputTypeChoices.length
        ∧ (index c.inputTypeChoices c.cursorPosition).isSome)
    ∧ (c.step = 1 → 0 ≤ c.cursorPosition ∧ c.cursorPosition < c.outputTypeChoices.length
        ∧ (index c.outputTypeChoices c.cursorPosition).isSome)
    ∧ (∀ msg : Msg, (Update c msg).isSome) := by
  obtain ⟨hin, hc⟩ := reachable_inv c hr
  have p0 : c.step = 0 → 0 ≤ c.cursorPosition ∧ c.cursorPosition < c.inputTypeChoices.length
        ∧ (index c.inputTypeChoices c.cursorPosition).isSome := by
    intro hs
    rcases hc with ⟨h0, ho, hl, hu⟩ | ⟨h1, _⟩ | ⟨h23, _⟩
    · obtain ⟨b, hb, _⟩ := index_baseNames c.cursorPosition hl hu
      rw [hin, hb]
      exact ⟨hl, hu, rfl⟩
    · omega
    · omega
  have p1 : c.step = 1 → 0 ≤ c.cursorPosition ∧ c.cursorPosition < c.outputTypeChoices.length
        ∧ (index c.outputTypeChoices c.cursorPosition).isSome := by
    intro hs
    rcases hc with ⟨h0, _⟩ | ⟨h1, hm, ho, hl, hu⟩ | ⟨h23, _⟩
    · omega
    · obtain ⟨b, hb, _⟩ := index_removeChoice c.inputType hm c.cursorPosition hl hu
      rw [ho, hb, length_removeChoice _ hm]
      exact ⟨hl, hu, rfl⟩
    · omega
  refine ⟨p0, p1, ?_⟩
  intro msg
  have ho := update_outcome c msg
  cases hm : Update c msg with
  | some r => rfl
  | none =>
    rw [hm] at ho
    cases ho with
    | enter0Panic hs hi => have := (p0 hs).2.2; rw [hi] at this; exact this
    | enter1Panic hs hi => have := (p1 hs).2.2; rw [hi] at this; exact this

theorem cursor_in_bounds_witness :
    (initConverter.step = 0 → 0 ≤ initConverter.cursorPosition
        ∧ initConverter.cursorPosition < initConverter.inputTypeChoices.length
        ∧ (index initConverter.inputTypeChoices initConverter.cursorPosition).isSome)
    ∧ (initConverter.step = 1 → 0 ≤ initConverter.cursorPosition
        ∧ initConverter.cursorPosition < initConverter.outputTypeChoices.length
        ∧ (index initConverter.outputTypeChoices initConverter.cursorPosition).isSome)
    ∧ (∀ msg : Msg, (Update initConverter msg).isSome) :=
  cursor_in_bounds initConverter Reachable.init

/-- Claim C11 (cursor movement only in the choice steps) at a failing input.  The state
`stateTyped` is reached by choosing decimal, moving down to hexadecimal, confirming and
typing `255`; it is in step 2 with the cursor at 1.  The key `up` moves its cursor to
0, and so does `k`, while `down` and `j` return it unchanged: only the branch of
`down` tests the step. -/
theorem cursor_up_in_enter_value :
    run initConverter
        [.key (str "down"), .key (str "down"), .key (str "enter"),
         .key (str "down"), .key (str "enter"),
         .key (str "2"), .key (str "5"), .key (str "5")] = some stateTyped
    ∧ stateTyped.step = 2
    ∧ Update stateTyped (.key (str "up"))
        = some ({ stateTyped with cursorPosition := 0 }, .nil)
    ∧ Update stateTyped (.key (str "k"))
        = some ({ stateTyped with cursorPosition := 0 }, .nil)
    ∧ ({ stateTyped with cursorPosition := 0 } : converter) ≠ stateTyped
    ∧ Update stateTyped (.key (str "down")) = some (stateTyped, .nil)
    ∧ Update stateTyped (.key (str "j")) = some (stateTyped, .nil) := by
  refine ⟨?_, ?_, ?_, ?_, ?_, ?_, ?_⟩ <;> decide

/-- Claim C12, as stated, fails: in the state `stateFailed`, which a failed conversion
of the text `xyz` leaves behind, typing `1` and then pressing backspace both return a
state whose error is still `Invalid input`. -/
theorem error_kept_while_typing :
    Update { stateFailed with input := str "xyz", error := str "" } (.key (str "enter"))
        = some (stateFailed, .nil)
    ∧ Update stateFailed (.key (str "1"))
        = some ({ stateFailed with input := str "1" }, .nil)
    ∧ Update { stateFailed with input := str "1" } (.key (str "backspace"))
        = some (stateFailed, .nil)
    ∧ stateFailed.error = str "Invalid input"
    ∧ stateFailed.error ≠ str "" := by
  refine ⟨?_, ?_, ?_, ?_, ?_⟩ <;> decide

/-- Claim C12, amended.  A key that is appended to the input and the backspace key
leave the error of every state as it is (in step 2 they change the input only); the
error is replaced by the next confirm in step 2, which stores the error of `convert`,
empty when the conversion succeeds. -/
theorem error_unchanged_by_editing (c : converter) (k : GoString)
    (hk : k ∉ reservedKeys ∨ k = str "backspace") :
    (∃ c', Update c (.key k) = some (c', .nil) ∧ c'.error = c.error
      ∧ c' = { c with input := c'.input })
    ∧ (c.step = 2 → ∃ c', Update c (.key (str "enter")) = some (c', .nil)
        ∧ c'.error = (convert c.input c.inputType c.outputType).2) := by
  constructor
  · rcases hk with hk | rfl
    · rw [Update_append c k hk]
      by_cases hs : c.step = 2
      · rw [if_pos hs]; exact ⟨_, rfl, rfl, rfl⟩
      · rw [if_neg hs]; exact ⟨_, rfl, rfl, rfl⟩
    · rw [Update_backspace c]
      by_cases hs : c.step = 2 ∧ c.input.length > 0
      · rw [if_pos hs]; exact ⟨_, rfl, rfl, rfl⟩
      · rw [if_neg hs]; exact ⟨_, rfl, rfl, rfl⟩
  · intro hs
    have hu : Update c (.key (str "enter")) =
        if (convert c.input c.inputType c.outputType).2 = str "" then
          some ({ c with
                  output := (convert c.input c.inputType c.outputType).1
                  error := (convert c.input c.inputType c.outputType).2
                  step := c.step + 1 }, .nil)
        else
          some ({ c with
                  output := (convert c.input c.inputType c.outputType).1
                  error := (convert c.input c.inputType c.outputType).2
                  input := str "" }, .nil) := by
      unfold Update
      simp only
      rw [if_neg (by decide), if_neg (by decide), if_neg (by decide), if_neg (by decide),
        if_pos trivial, if_neg (by omega), if_neg (by omega), if_pos hs]
    rw [hu]
    by_cases he : (convert c.input c.inputType c.outputType).2 = str ""
    · rw [if_pos he]; exact ⟨_, rfl, rfl⟩
    · rw [if_neg he]; exact ⟨_, rfl, rfl⟩

theorem error_unchanged_by_editing_witness :
    (∃ c', Update stateFailed (.key (str "1")) = some (c', .nil)
      ∧ c'.error = stateFailed.error ∧ c' = { stateFailed with input := c'.input })
    ∧ (stateFailed.step = 2 → ∃ c', Update stateFailed (.key (str "enter")) = some (c', .nil)
        ∧ c'.error = (convert stateFailed.input stateFailed.inputType
            stateFailed.outputType).2) :=
  error_unchanged_by_editing stateFailed (str "1") (Or.inl (by decide))

/-- Claim C13 (reset).  In every state with `step > 0` the key `r` returns the fresh
initial state, in a state with `step = 0` it returns the state unchanged, and enter in
step 3 returns the same fresh initial state; that state has step 0, cursor 0, the three
base names as input and as output choices, and empty text fields. -/
theorem reset_to_initial (c : converter) :
    (c.step > 0 → Update c (.key (str "r")) = some (initConverter, .nil))
    ∧ (c.step = 0 → Update c (.key (str "r")) = some (c, .nil))
    ∧ (c.step = 3 → Update c (.key (str "enter")) = some (initConverter, .nil))
    ∧ initConverter =
        { inputTypeChoices := [str "binary", str "hexadecimal", str "decimal"]
          outputTypeChoices := [str "binary", str "hexadecimal", str "decimal"]
          cursorPosition := 0
          inputType := []
          outputType := []
          input := []
          output := []
          step := 0
          error := [] } := by
  refine ⟨?_, ?_, ?_, ?_⟩
  · intro h
    rw [Update_reset, if_pos h]
  · intro h
    rw [Update_reset, if_neg (by omega)]
  · exact Update_enter_step3 c
  · decide

theorem reset_to_initial_witness :
    Update stateTyped (.key (str "r")) = some (initConverter, .nil)
    ∧ Update initConverter (.key (str "r")) = some (initConverter, .nil)
    ∧ Update { stateTyped with step := 3, output := str "ff" } (.key (str "enter"))
        = some (initConverter, .nil) :=
  ⟨(reset_to_initial stateTyped).1 (by decide),
   (reset_to_initial initConverter).2.1 rfl,
   (reset_to_initial { stateTyped with step := 3, output := str "ff" }).2.2.1 rfl⟩

/-- Claim C14 (backspace undoes AppendChar) at a failing input.  In the state
`stateEnterValue` (step 2, empty input) the key of the two-byte character U+00E9 is
appended as the bytes `0xC3 0xA9`; the following backspace removes the last byte only
and leaves the input `0xC3`, which is not the input before the key. -/
theorem backspace_multibyte :
    str "é" = [0xC3, 0xA9]
    ∧ str "é" ∉ reservedKeys
    ∧ stateEnterValue.step = 2
    ∧ stateEnterValue.input = []
    ∧ Update stateEnterValue (.key (str "é"))
        = some ({ stateEnterValue with input := [0xC3, 0xA9] }, .nil)
    ∧ Update { stateEnterValue with input := [0xC3, 0xA9] } (.key (str "backspace"))
        = some ({ stateEnterValue with input := [0xC3] }, .nil)
    ∧ ({ stateEnterValue with input := [0xC3] } : converter) ≠ stateEnterValue := by
  refine ⟨?_, ?_, ?_, ?_, ?_, ?_, ?_⟩ <;> decide

/-- Claim C15 (choice-list rendering).  In step 0 or step 1 with the cursor inside the
active choice list, `View` returns the prompt of the step, then one line per choice of
the active list in list order, then the help lines; the line of the choice at the
cursor index is the marker `>`, a blank, the choice and a line end, the line of every
other choice has a blank for the marker; exactly one line starts with `>`. -/
theorem view_choice_list (ac : GoString) (c : converter) (choices : List GoString)
    (prompt : GoString)
    (hs : (c.step = 0 ∧ choices = c.inputTypeChoices
            ∧ prompt = str "What type of input would you like to convert?\n\n")
        ∨ (c.step = 1 ∧ choices = c.outputTypeChoices
            ∧ prompt = str "What type of output would you like?\n\n"))
    (h0 : 0 ≤ c.cursorPosition) (hn : c.cursorPosition < choices.length) :
    ∃ lines : List GoString,
      View ac c = prompt ++ lines.flatten ++ helpLines c.step
      ∧ lines.length = choices.length
      ∧ (∀ i : Nat, lines[i]?
          = (choices[i]?).map (choiceLine (decide (i = c.cursorPosition.toNat))))
      ∧ lines.countP (fun l => decide (l.head? = some 62)) = 1 := by
  refine ⟨markedLines c.cursorPosition 0 choices, ?_, length_markedLines _ _ _, ?_, ?_⟩
  · rw [View_eq]
    rcases hs with ⟨s0, rfl, rfl⟩ | ⟨s1, rfl, rfl⟩
    · rw [viewStep_zero ac c s0]
    · rw [viewStep_one ac c s1]
  · intro i
    rw [getElem?_markedLines, Nat.zero_add]
    have : decide (c.cursorPosition = (i : Int)) = decide (i = c.cursorPosition.toNat) := by
      apply decide_eq_decide.mpr
      omega
    rw [this]
  · rw [countP_markedLines, if_pos ⟨by simpa using h0, by simpa using hn⟩]

theorem view_choice_list_witness :
    ∃ lines : List GoString,
      View (str "> ") initConverter
        = str "What type of input would you like to convert?\n\n" ++ lines.flatten
            ++ helpLines initConverter.step
      ∧ lines.length = initConverter.inputTypeChoices.length
      ∧ (∀ i : Nat, lines[i]?
          = (initConverter.inputTypeChoices[i]?).map
              (choiceLine (decide (i = initConverter.cursorPosition.toNat))))
      ∧ lines.countP (fun l => decide (l.head? = some 62)) = 1 :=
  view_choice_list (str "> ") initConverter initConverter.inputTypeChoices
    (str "What type of input would you like to convert?\n\n")
    (Or.inl ⟨rfl, rfl, rfl⟩) (by decide) (by decide)

/-- Claim C16 (help lines).  In every state the text of `View` ends with the quit line,
followed by the reset line if `step > 0`; the reset line ends the text if and only if
`step > 0`, and these are the states in which the key `r` resets (elsewhere it returns
the state unchanged). -/
theorem view_help_lines (ac : GoString) (c : converter) :
    (if c.step > 0 then str "\nPress q to quit.\nPress r to reset.\n"
      else str "\nPress q to quit.\n") <:+ View ac c
    ∧ (c.step > 0 ↔ str "\nPress r to reset.\n" <:+ View ac c)
    ∧ Update c (.key (str "r")) = some (if c.step > 0 then initConverter else c, .nil) := by
  have hq : ¬ c.step > 0 → str "\nPress q to quit.\n" <:+ View ac c := by
    intro hpos
    rw [View_eq]
    unfold helpLines
    rw [if_neg hpos]
    exact ⟨viewStep ac c, rfl⟩
  have hr : c.step > 0 → str "\nPress q to quit.\nPress r to reset.\n" <:+ View ac c := by
    intro hpos
    rw [View_eq]
    unfold helpLines
    rw [if_pos hpos]
    exact ⟨viewStep ac c, rfl⟩
  refine ⟨?_, ?_, ?_⟩
  · by_cases hpos : c.step > 0
    · rw [if_pos hpos]; exact hr hpos
    · rw [if_neg hpos]; exact hq hpos
  · constructor
    · intro hpos
      obtain ⟨t, ht⟩ := hr hpos
      refine ⟨t ++ str "\nPress q to quit.", ?_⟩
      rw [← ht, List.append_assoc]
      rfl
    · intro hsuf
      by_contra hpos
      have h := List.suffix_of_suffix_length_le (hq hpos) hsuf (by decide)
      revert h
      decide
  · rw [Update_reset]
    by_cases hpos : c.step > 0
    · rw [if_pos hpos, if_pos hpos]
    · rw [if_neg hpos, if_neg hpos]

/-- Claim C17 (segment fold without range check).  For a source base of radix 2, 16 or
10 and a text all of whose segments are integer literals of the radix within `int64`,
the parsed accumulator is the left fold, from 0 over the values of the segments, of
`(acc << 8) | v` computed on 64-bit vectors and read as a signed number; it lies in
the `int64` range, and the conversion to decimal returns its signed decimal text
without error.  No segment value is checked against 0..255: the segment `256` is
accepted, and `1.256` gives `256`, as `1.0` does. -/
theorem segment_fold :
    (∀ (text src : GoString) (radix : Nat),
      (src, radix) ∈ [(str "binary", 2), (str "hexadecimal", 16), (str "decimal", 10)] →
      (∀ seg ∈ text.splitOn 46, isIntLiteral radix seg) →
      parseInput text src
          = .ok (((text.splitOn 46).map (literalValue radix)).foldl int64ShlOr 0)
      ∧ -2 ^ 63 ≤ ((text.splitOn 46).map (literalValue radix)).foldl int64ShlOr 0
      ∧ ((text.splitOn 46).map (literalValue radix)).foldl int64ShlOr 0 < 2 ^ 63
      ∧ convert text src (str "decimal")
          = (signedDecimal (((text.splitOn 46).map (literalValue radix)).foldl int64ShlOr 0),
              str ""))
    ∧ int64ShlOr 0 1 = 1
    ∧ int64ShlOr 1 2 = 258
    ∧ int64ShlOr 1 256 = 256
    ∧ int64ShlOr 1 511 = 511
    ∧ int64ShlOr (-1) 0 = -256
    ∧ int64ShlOr 1 (-1) = -1
    ∧ int64ShlOr (2 ^ 55) 0 = -2 ^ 63
    ∧ int64ShlOr (2 ^ 56) 7 = 7
    ∧ isIntLiteral 10 (str "256")
    ∧ literalValue 10 (str "256") = 256
    ∧ convert (str "1.256") (str "decimal") (str "decimal") = (str "256", str "")
    ∧ convert (str "1.0") (str "decimal") (str "decimal") = (str "256", str "")
    ∧ convert (str "1.2") (str "decimal") (str "decimal") = (str "258", str "")
    ∧ convert (str "1.511") (str "decimal") (str "decimal") = (str "511", str "")
    ∧ convert (str "-1.0") (str "decimal") (str "decimal") = (str "-256", str "")
    ∧ convert (str "ff.ab") (str "hexadecimal") (str "decimal") = (str "65451", str "")
    ∧ convert (str "10000000.0.0.0.0.0.0.0") (str "binary") (str "decimal")
        = (str "-9223372036854775808", str "") := by
  constructor
  swap
  · decide
  intro text src radix hsrc hseg
  obtain ⟨hp, hb, hb16⟩ := parseInput_radix text src radix hsrc
  have hsp : stringsSplit text = text.splitOn 46 := stringsSplit_eq_splitOn text
  rw [← hsp] at hseg
  have hq := parseParts_literals radix hb hb16 (stringsSplit text) 0 hseg
  rw [← hp] at hq
  have hr := foldl_shlOr_range ((stringsSplit text).map (literalValue radix))
  rw [hsp, shlOr_funext] at hq hr
  refine ⟨hq, hr.1, hr.2, ?_⟩
  unfold convert
  rw [hq]
  simp only
  rw [formatOutput_decimal, formatDecimal, FormatInt_signedDecimal _ hr.1 hr.2]

theorem segment_fold_witness :
    parseInput (str "1.256") (str "decimal") = .ok 256
    ∧ convert (str "1.256") (str "decimal") (str "decimal") = (signedDecimal 256, str "") := by
  have h := segment_fold.1 (str "1.256") (str "decimal") 10 (by decide) (by decide)
  have e : (((str "1.256").splitOn 46).map (literalValue 10)).foldl int64ShlOr 0 = 256 := by
    decide
  rw [e] at h
  exact ⟨h.1, h.2.2.2⟩

/-- Claim C18 (byte-chunked formatting of non-negative values).  For `0 <= v < 2^63`,
`strconv.FormatInt` writes the minimal digit string of `v`; the text `formatBinary`
returns is the 8-digit binary texts of the bytes of `v`, most significant first, with
one dot between neighbours, and the text of `formatHexadecimal` the 2-digit lowercase
hexadecimal texts of the same bytes; cutting the text at its dots gives these chunks
back; the chunks put together are the minimal digit string with zeros in front up to
the next multiple of 8 (of 2) digits; the bytes have no leading zero byte, are the
single byte 0 for `v = 0`, and read as base-256 digits they give `v`.  The digit
alphabet is `0123456789abcdef`, and the outputs for 0, 256, 2748, 65451 and `2^63 - 1`
are as listed. -/
theorem byte_chunked_format :
    (∀ v : Int, 0 ≤ v → v < 2 ^ 63 →
      FormatInt v 2 = minimalDigits 2 v.toNat
      ∧ FormatInt v 16 = minimalDigits 16 v.toNat
      ∧ formatBinary v = List.intercalate [46] ((bytesBE v.toNat).map (fixedDigits 2 8))
      ∧ formatHexadecimal v = List.intercalate [46] ((bytesBE v.toNat).map (fixedDigits 16 2))
      ∧ (formatBinary v).splitOn 46 = (bytesBE v.toNat).map (fixedDigits 2 8)
      ∧ (formatHexadecimal v).splitOn 46 = (bytesBE v.toNat).map (fixedDigits 16 2)
      ∧ ((bytesBE v.toNat).map (fixedDigits 2 8)).flatten
          = List.replicate (((minimalDigits 2 v.toNat).length + 7) / 8 * 8
              - (minimalDigits 2 v.toNat).length) 48 ++ minimalDigits 2 v.toNat
      ∧ ((bytesBE v.toNat).map (fixedDigits 16 2)).flatten
          = List.replicate (((minimalDigits 16 v.toNat).length + 1) / 2 * 2
              - (minimalDigits 16 v.toNat).length) 48 ++ minimalDigits 16 v.toNat
      ∧ (∀ ch ∈ (bytesBE v.toNat).map (fixedDigits 2 8), ch.length = 8)
      ∧ (∀ ch ∈ (bytesBE v.toNat).map (fixedDigits 16 2), ch.length = 2)
      ∧ Nat.ofDigits 256 (bytesBE v.toNat).reverse = v.toNat
      ∧ (∀ x ∈ bytesBE v.toNat, x < 256)
      ∧ ((bytesBE v.toNat).length = 1 ∨ (bytesBE v.toNat).head? ≠ some 0)
      ∧ (v.toNat = 0 → bytesBE v.toNat = [0]))
    ∧ (List.range 16).map digitByte = str "0123456789abcdef"
    ∧ fixedDigits 2 8 171 = str "10101011"
    ∧ fixedDigits 16 2 171 = str "ab"
    ∧ fixedDigits 16 2 10 = str "0a"
    ∧ formatBinary 0 = str "00000000"
    ∧ formatHexadecimal 0 = str "00"
    ∧ formatBinary 65451 = str "11111111.10101011"
    ∧ formatHexadecimal 65451 = str "ff.ab"
    ∧ formatBinary 256 = str "00000001.00000000"
    ∧ formatHexadecimal 2748 = str "0a.bc"
    ∧ formatHexadecimal (2 ^ 63 - 1) = str "7f.ff.ff.ff.ff.ff.ff.ff" := by
  constructor
  swap
  · decide
  intro v h0 h63
  obtain ⟨b1, _, _, b4⟩ := format_chunks 2 8 (by omega) (by omega) (by norm_num) v h0 h63
  obtain ⟨x1, _, _, x4⟩ := format_chunks 16 2 (by omega) (by omega) (by norm_num) v h0 h63
  obtain ⟨tb1, tb2, tb3⟩ :=
    format_text 2 8 (by omega) (by omega) (by omega) (by norm_num) v h0 h63
  obtain ⟨tx1, tx2, tx3⟩ :=
    format_text 16 2 (by omega) (by omega) (by omega) (by norm_num) v h0 h63
  obtain ⟨p1, p2, p3, p4⟩ := bytesBE_props v.toNat
  have eb : formatBinary v
      = List.intercalate [46] ((bytesBE v.toNat).map (fixedDigits 2 8)) := tb1
  have ex : formatHexadecimal v
      = List.intercalate [46] ((bytesBE v.toNat).map (fixedDigits 16 2)) := tx1
  exact ⟨b1, x1, eb, ex, by rw [eb]; exact tb2, by rw [ex]; exact tx2, tb3, tx3, b4, x4,
    p1, p2, p3, p4⟩

theorem byte_chunked_format_witness :
    formatBinary 65451 = List.intercalate [46] [fixedDigits 2 8 255, fixedDigits 2 8 171]
    ∧ formatHexadecimal 65451
        = List.intercalate [46] [fixedDigits 16 2 255, fixedDigits 16 2 171]
    ∧ Nat.ofDigits 256 [171, 255] = 65451 := by
  have h := byte_chunked_format.1 65451 (by decide) (by decide)
  have e : bytesBE (65451 : Int).toNat = [255, 171] := by
    simp [bytesBE]
  rw [e] at h
  exact ⟨h.2.2.1, h.2.2.2.1, h.2.2.2.2.2.2.2.2.2.2.1⟩

/-- Claim C19 (value preservation through any base).  For every `n` with
`0 <= n < 2^63` and the base binary or hexadecimal, converting the decimal text of `n`
(its minimal decimal digit string) to the base succeeds, and converting the result
back to decimal succeeds and returns the decimal text of `n`. -/
theorem value_preservation (n : Int) (b2 : GoString) (h0 : 0 ≤ n) (h63 : n < 2 ^ 63)
    (hb : b2 = str "binary" ∨ b2 = str "hexadecimal") :
    FormatInt n 10 = minimalDigits 10 n.toNat
    ∧ ∃ r : GoString, convert (FormatInt n 10) (str "decimal") b2 = (r, str "")
      ∧ convert r b2 (str "decimal") = (FormatInt n 10, str "") := by
  have hd : parseInput (FormatInt n 10) (str "decimal") = .ok n := by
    rw [parseInput_decimal]
    exact parseDecimal_formatDecimal n h0 h63
  refine ⟨by rw [FormatInt_nonneg n 10 h0, FormatUint_minimal 10 (by omega) _ (by omega)], ?_⟩
  rcases hb with rfl | rfl
  · refine ⟨formatBinary n, ?_, ?_⟩
    · unfold convert
      rw [hd]
      exact formatOutput_binary n
    · unfold convert
      rw [parseInput_binary, parseBinary_formatBinary n h0 h63]
      exact formatOutput_decimal n
  · refine ⟨formatHexadecimal n, ?_, ?_⟩
    · unfold convert
      rw [hd]
      exact formatOutput_hexadecimal n
    · unfold convert
      rw [parseInput_hexadecimal, parseHexadecimal_formatHexadecimal n h0 h63]
      exact formatOutput_decimal n

theorem value_preservation_witness :
    ∃ r : GoString, convert (FormatInt 65535 10) (str "decimal") (str "hexadecimal") = (r, str "")
      ∧ convert r (str "hexadecimal") (str "decimal") = (FormatInt 65535 10, str "") :=
  (value_preservation 65535 (str "hexadecimal") (by decide) (by decide) (Or.inr rfl)).2

/-- Claim C20 (accumulator overflow is never reported).  For a source base of radix 2,
16 or 10, a destination base among the three and a text all of whose segments are
integer literals of the radix within `int64`, `convert` returns an empty error whatever
the number of segments; and when there are at least 8 segments, the accumulator is the
fold over the last 8 segments alone: the segments before them do not influence the
result.  Nine segments `1.0.0.0.0.0.0.0.0` give `0`, and eight segments `ff` give `-1`,
both without error. -/
theorem overflow_not_reported :
    (∀ (text src dst : GoString) (radix : Nat),
      (src, radix) ∈ [(str "binary", 2), (str "hexadecimal", 16), (str "decimal", 10)] →
      dst ∈ [str "binary", str "hexadecimal", str "decimal"] →
      (∀ seg ∈ stringsSplit text, isIntLiteral radix seg) →
      (convert text src dst).2 = str ""
      ∧ (8 ≤ (stringsSplit text).length →
          parseInput text src
            = .ok ((((stringsSplit text).drop ((stringsSplit text).length - 8)).map
                (literalValue radix)).foldl shlOr 0)))
    ∧ convert (str "1.0.0.0.0.0.0.0.0") (str "decimal") (str "decimal") = (str "0", str "")
    ∧ convert (str "ff.ff.ff.ff.ff.ff.ff.ff") (str "hexadecimal") (str "decimal")
        = (str "-1", str "") := by
  refine ⟨?_, by decide, by decide⟩
  intro text src dst radix hsrc hdst hseg
  obtain ⟨hp, hb, hb16⟩ := parseInput_radix text src radix hsrc
  have hq := parseParts_literals radix hb hb16 (stringsSplit text) 0 hseg
  rw [← hp] at hq
  constructor
  · unfold convert
    rw [hq]
    exact formatOutput_error _ dst hdst
  · intro h8
    rw [hq]
    congr 1
    generalize stringsSplit text = segs at h8
    have hsplit : segs = segs.take (segs.length - 8) ++ segs.drop (segs.length - 8) :=
      (List.take_append_drop _ _).symm
    conv_lhs => rw [hsplit]
    rw [List.map_append, List.foldl_append]
    apply foldl_shlOr_start
    rw [List.length_map, List.length_drop]
    omega

theorem overflow_not_reported_witness :
    (convert (str "1.0.0.0.0.0.0.0.0") (str "decimal") (str "decimal")).2 = str ""
    ∧ parseInput (str "1.0.0.0.0.0.0.0.0") (str "decimal") = .ok 0 := by
  have h := overflow_not_reported.1 (str "1.0.0.0.0.0.0.0.0") (str "decimal") (str "decimal")
    10 (by decide) (by decide) (by decide)
  exact ⟨h.1, (h.2 (by decide)).trans (congrArg Except.ok (by decide))⟩

end BinHexDec
